import Mathlib

/-!
Shallow embedding of `src/truthy_measure/heap.pyx` (classes `BinaryHeap` and
`FastUpdateBinaryHeap`), a level-structured tournament-tree binary min heap.

Modelling conventions:
* C `double` values are modelled as `WithTop ℚ`; the sentinel `inf = Py_HUGE_VAL`
  is `⊤`.  (Floating-point rounding and the `double` to `float` narrowing on the
  return path of `pop_fast` are abstracted away; only the order structure is used.)
* The C buffers `_values`, `_references`, `_crossref` are modelled as `List`s of
  the corresponding lengths; reads use `List.getD` with the idle value of the
  buffer (`inf`, resp. `-1`) as default.  Memory that the C code leaves
  uninitialised (`malloc` without initialisation of `_references` and of a fresh
  `_crossref`) is modelled as filled with `-1`; no theorem below depends on the
  contents of those slots.
* A `_crossref` write through a reference that the heap never stores (negative
  index) would be an out-of-bounds write in C; `setIdx` models it as a frame
  no-op and it is never reached from states whose stored references are in
  range.  An out-of-bounds *read* of `_crossref` (in `value_of_fast`, which
  performs no range check) is modelled explicitly as the outcome `PyOutcome.undef`.
* The mutable output cells `_popped_ref`, `_pushed` and `_invalid_ref` are
  functionalised into return values.
* Python exceptions are modelled by `PyErr` carried in `Except` / `PyOutcome`.
-/

/-- The value type of the heap: rationals extended with the sentinel `+∞`. -/
abbrev VALUE_T : Type := WithTop ℚ

/-- `cdef VALUE_T inf = Py_HUGE_VAL` — the empty-slot sentinel. -/
def inf : VALUE_T := ⊤

/-- Embed a rational as a heap value. -/
def qv (q : ℚ) : VALUE_T := (q : WithTop ℚ)

/-- Python exceptions raised by the heap code. -/
inductive PyErr : Type
  | indexError : String → PyErr
  | valueError : String → PyErr
deriving DecidableEq

/-- Does an error have the Python class `ValueError`? -/
def PyErr.isValueError : PyErr → Bool
  | .valueError _ => true
  | .indexError _ => false

/-- Outcome of a call into C code: a normal return, a raised Python exception,
or an out-of-bounds memory access (undefined behaviour in C). -/
inductive PyOutcome (α : Type) : Type
  | ok : α → PyOutcome α
  | exn : PyErr → PyOutcome α
  | undef : PyOutcome α
deriving DecidableEq

/-- Write `l[k] := v` for an `int` index `k`: a negative or too-large `k` is an
out-of-bounds write in C, modelled as a frame no-op (never reached from
well-formed states). -/
def setIdx (l : List Int) (k : Int) (v : Int) : List Int :=
  if 0 ≤ k then l.set k.toNat v else l

/-- `if i % 2 == 0: i = i - 1` — the pair-aligning step of `_update_one`. -/
def oddify (i : Nat) : Nat := if i % 2 = 0 then i - 1 else i

/-- Loop body of `_update_one`: `k` remaining iterations of
`for level in range(levels, 1, -1)`, current absolute (odd) index `i`. -/
def updateOneAux : Nat → List VALUE_T → Nat → List VALUE_T
  | 0, vs, _ => vs
  | k + 1, vs, i =>
      let ii := (i - 1) / 2
      let m := if vs.getD i inf < vs.getD (i + 1) inf
               then vs.getD i inf else vs.getD (i + 1) inf
      updateOneAux k (vs.set ii m) (if ii % 2 = 1 then ii else ii - 1)

/-- `BinaryHeap._update_one(i)`: recompute the root-ward path of the changed
absolute index `i`, stopping at level 1. -/
def update_one (levels : Nat) (vs : List VALUE_T) (i : Nat) : List VALUE_T :=
  updateOneAux (levels - 1) vs (oddify i)

/-- Inner loop of `_update`: process `k` pairs at one level, current pair
starting at absolute index `i`, writing each parent `(i-1)/2`. -/
def updatePairs : Nat → List VALUE_T → Nat → List VALUE_T
  | 0, vs, _ => vs
  | k + 1, vs, i =>
      let m := if vs.getD i inf < vs.getD (i + 1) inf
               then vs.getD i inf else vs.getD (i + 1) inf
      updatePairs k (vs.set ((i - 1) / 2) m) (i + 2)

/-- `BinaryHeap._update()`: full bottom-up rebuild,
`for level in range(levels, 1, -1)` processing the pairs of each level. -/
def updateDown : Nat → List VALUE_T → List VALUE_T
  | 0, vs => vs
  | 1, vs => vs
  | l + 2, vs => updateDown (l + 1) (updatePairs (2 ^ (l + 1)) vs (2 ^ (l + 2) - 1))

/-- Copy loop `for i in range(n): dst[d+i] = src[s+i]` on value buffers. -/
def copyVals : Nat → List VALUE_T → List VALUE_T → Nat → Nat → List VALUE_T
  | 0, dst, _, _, _ => dst
  | n + 1, dst, src, d, s => copyVals n (dst.set d (src.getD s inf)) src (d + 1) (s + 1)

/-- Copy loop `for i in range(n): dst[i] = src[i]` on reference buffers. -/
def copyRefs : Nat → List Int → List Int → Nat → List Int
  | 0, dst, _, _ => dst
  | n + 1, dst, src, j => copyRefs n (dst.set j (src.getD j (-1))) src (j + 1)

/-- The state of `cdef class BinaryHeap`. -/
structure BinaryHeap : Type where
  min_levels : Nat
  levels : Nat
  count : Nat
  values : List VALUE_T
  references : List Int
deriving DecidableEq

namespace BinaryHeap

/-- Absolute start index of the leaf level: `2**levels - 1`. -/
def leafStart (h : BinaryHeap) : Nat := 2 ^ h.levels - 1

/-- Read an absolute slot of the value buffer. -/
def val (h : BinaryHeap) (i : Nat) : VALUE_T := h.values.getD i inf

/-- Value of the leaf at leaf-relative position `r`. -/
def leafVal (h : BinaryHeap) (r : Nat) : VALUE_T := h.values.getD (2 ^ h.levels - 1 + r) inf

/-- Reference stored at leaf-relative position `r`. -/
def refAt (h : BinaryHeap) (r : Nat) : Int := h.references.getD r (-1)

/-- `BinaryHeap._add_or_remove_level`, with the target level count made
explicit (the code only ever passes `levels ± 1`).  Allocates sentinel-filled
buffers, copies the leaves by relative position if `count` is nonzero, and
ends with the full rebuild `_update`. -/
def add_or_remove_level (h : BinaryHeap) (new_levels : Nat) : BinaryHeap :=
  let number := 2 ^ new_levels
  let values0 : List VALUE_T := List.replicate (number * 2) inf
  let references0 : List Int := List.replicate number (-1)
  let i1 := 2 ^ new_levels - 1
  let i2 := 2 ^ h.levels - 1
  let n := min (2 ^ new_levels) (2 ^ h.levels)
  let values1 := if h.count ≠ 0 then copyVals n values0 h.values i1 i2 else values0
  let references1 := if h.count ≠ 0 then copyRefs n references0 h.references 0 else references0
  { h with levels := new_levels, values := updateDown new_levels values1,
           references := references1 }

/-- `BinaryHeap._remove(i1)`: swap the leaf at absolute index `i1` with the
last occupied leaf, clear the vacated slot, decrement `count`, then either
shrink one level or locally repair the two affected paths. -/
def remove (h : BinaryHeap) (i1 : Nat) : BinaryHeap :=
  let levels := h.levels
  let count := h.count
  let i0 := 2 ^ levels - 1
  let i2 := i0 + count - 1
  let r1 := i1 - i0
  let r2 := count - 1
  let values := (h.values.set i1 (h.values.getD i2 inf)).set i2 inf
  let references := h.references.set r1 (h.references.getD r2 (-1))
  let h' := { h with values := values, references := references, count := count - 1 }
  if h.min_levels < levels ∧ count - 1 < 2 ^ (levels - 2) then
    add_or_remove_level h' (levels - 1)
  else
    { h' with values := update_one levels (update_one levels values i1) i2 }

/-- `BinaryHeap.push_fast(value, reference)`: grow if full, append at leaf
position `count`, repair the new root-ward path; returns the leaf-relative
position of the insert together with the new state. -/
def push_fast (value : VALUE_T) (reference : Int) (h : BinaryHeap) : Nat × BinaryHeap :=
  let h := if 2 ^ h.levels ≤ h.count then add_or_remove_level h (h.levels + 1) else h
  let levels := h.levels
  let count := h.count
  let i := (2 ^ levels - 1) + count
  let values := update_one levels (h.values.set i value) i
  let references := h.references.set count reference
  (count, { h with values := values, references := references, count := count + 1 })

/-- Loop of `pop_fast`: `k` remaining iterations of `for level in range(1, levels)`,
descending from absolute index `i` into the children of whichever pair member is
smaller (ties go to the second member — the `<` test fails on equality). -/
def descendAux : Nat → List VALUE_T → Nat → Nat
  | 0, _, i => i
  | k + 1, vs, i =>
      if vs.getD i inf < vs.getD (i + 1) inf
      then descendAux k vs (i * 2 + 1)
      else descendAux k vs ((i + 1) * 2 + 1)

/-- The absolute leaf index that `pop_fast` selects: descend from level 1,
then pick the smaller member of the final leaf pair (ties to the second; the
local `i` of the source is written out). -/
def selectMinIndex (levels : Nat) (vs : List VALUE_T) : Nat :=
  if vs.getD (descendAux (levels - 1) vs 1) inf
     < vs.getD (descendAux (levels - 1) vs 1 + 1) inf
  then descendAux (levels - 1) vs 1 else descendAux (levels - 1) vs 1 + 1

/-- `BinaryHeap.pop_fast()`: locate the minimum leaf, read its value and
reference, and remove it unless the value is the sentinel.  The C code stores
the reference in `self._popped_ref`; here it is returned directly. -/
def pop_fast (h : BinaryHeap) : VALUE_T × Int × BinaryHeap :=
  let i := selectMinIndex h.levels h.values
  let ir := i - (2 ^ h.levels - 1)
  let value := h.values.getD i inf
  let popped_ref := h.references.getD ir (-1)
  if value ≠ inf then (value, popped_ref, remove h i) else (value, popped_ref, h)

/-- `BinaryHeap.push(value, reference=-1)` — the Python wrapper discards the
returned position. -/
def push (value : VALUE_T) (reference : Int) (h : BinaryHeap) : BinaryHeap :=
  (push_fast value reference h).2

/-- `BinaryHeap.min_val()`: the smaller of the two level-1 slots, without any
emptiness check and without mutation. -/
def min_val (h : BinaryHeap) : VALUE_T :=
  if h.values.getD 1 inf < h.values.getD 2 inf
  then h.values.getD 1 inf else h.values.getD 2 inf

/-- `BinaryHeap.pop()`: raises `IndexError` on an empty heap, otherwise returns
`(value, reference)` from `pop_fast` together with the new state. -/
def pop (h : BinaryHeap) : Except PyErr (VALUE_T × Int × BinaryHeap) :=
  if h.count = 0 then .error (.indexError "pop from an empty heap")
  else .ok (pop_fast h)

/-- `BinaryHeap.reset()`: refill the whole value buffer with the sentinel.
Note that `count` is *not* touched (it is zeroed in `__init__` only, before
the constructor calls `reset`), and neither is `_references`. -/
def reset (h : BinaryHeap) : BinaryHeap :=
  { h with values := List.replicate (2 ^ h.levels * 2) inf }

end BinaryHeap

/-- `while 2**levels < initial_capacity: levels += 1`, with fuel (the loop
terminates after at most `cap` steps since `2^cap ≥ cap`). -/
def calcLevelsAux : Nat → Nat → Nat → Nat
  | 0, l, _ => l
  | f + 1, l, cap => if 2 ^ l < cap then calcLevelsAux f (l + 1) cap else l

/-- Number of levels computed by the `BinaryHeap` constructor. -/
def calcLevels (cap : Nat) : Nat := calcLevelsAux cap 0 cap

/-- `BinaryHeap.__init__(initial_capacity)`: fresh empty heap.  The C code
leaves `_references` uninitialised; it is modelled as filled with `-1`. -/
def newBinaryHeap (cap : Nat) : BinaryHeap :=
  let levels := calcLevels cap
  { min_levels := levels, levels := levels, count := 0,
    values := List.replicate (2 ^ levels * 2) inf,
    references := List.replicate (2 ^ levels) (-1) }

/-- The state of `cdef class FastUpdateBinaryHeap(BinaryHeap)`: the inherited
base state plus `max_reference` and the cross-reference table. -/
structure FastUpdateBinaryHeap : Type where
  base : BinaryHeap
  max_reference : Nat
  crossref : List Int
deriving DecidableEq

namespace FastUpdateBinaryHeap

/-- `FastUpdateBinaryHeap.__init__(initial_capacity, max_reference)`. -/
def mkNew (cap : Nat) (maxref : Nat) : FastUpdateBinaryHeap :=
  { base := newBinaryHeap cap, max_reference := maxref,
    crossref := List.replicate (maxref + 1) (-1) }

/-- `FastUpdateBinaryHeap.reset()`: `BinaryHeap.reset` plus clearing the
cross-reference table (the `count` bug of the base `reset` is inherited). -/
def reset (x : FastUpdateBinaryHeap) : FastUpdateBinaryHeap :=
  { x with base := x.base.reset,
           crossref := List.replicate (x.max_reference + 1) (-1) }

/-- `FastUpdateBinaryHeap._remove(i1)` (the override used by `pop_fast` via
virtual dispatch): the two cross-reference writes — reading the reference
buffer of the *pre* state — followed by the base-class removal on the
inherited fields. -/
def fuRemove (x : FastUpdateBinaryHeap) (i1 : Nat) : FastUpdateBinaryHeap :=
  let i0 := 2 ^ x.base.levels - 1
  let r1 := i1 - i0
  let r2 := x.base.count - 1
  let cr := setIdx (setIdx x.crossref (x.base.references.getD r2 (-1)) (((r1 : Int))))
                   (x.base.references.getD r1 (-1)) (-1)
  { x with base := x.base.remove i1, crossref := cr }

/-- `FastUpdateBinaryHeap.push_fast(value, reference)`: `-1` for an
out-of-range reference; in-place value overwrite plus path repair when the
reference is present; otherwise the base-class append plus a cross-reference
record. -/
def push_fast (value : VALUE_T) (reference : Int) (x : FastUpdateBinaryHeap) :
    Int × FastUpdateBinaryHeap :=
  if ¬ (0 ≤ reference ∧ reference ≤ (x.max_reference : Int)) then (-1, x)
  else
    let ir := x.crossref.getD reference.toNat (-1)
    if ir ≠ -1 then
      let i := (2 ^ x.base.levels - 1) + ir.toNat
      let values := update_one x.base.levels (x.base.values.set i value) i
      (ir, { x with base := { x.base with values := values } })
    else
      let pb := BinaryHeap.push_fast value reference x.base
      (((pb.1 : Int)), { x with base := pb.2,
                                crossref := setIdx x.crossref reference (((pb.1 : Int))) })

/-- `FastUpdateBinaryHeap.pop_fast()`: the inherited descent, ending in the
overridden `_remove`. -/
def pop_fast (x : FastUpdateBinaryHeap) : VALUE_T × Int × FastUpdateBinaryHeap :=
  let i := BinaryHeap.selectMinIndex x.base.levels x.base.values
  let ir := i - (2 ^ x.base.levels - 1)
  let value := x.base.values.getD i inf
  let popped_ref := x.base.references.getD ir (-1)
  if value ≠ inf then (value, popped_ref, fuRemove x i) else (value, popped_ref, x)

/-- `FastUpdateBinaryHeap.pop()` (inherited wrapper over the dispatched
`pop_fast`). -/
def pop (x : FastUpdateBinaryHeap) : Except PyErr (VALUE_T × Int × FastUpdateBinaryHeap) :=
  if x.base.count = 0 then .error (.indexError "pop from an empty heap")
  else .ok (pop_fast x)

/-- `FastUpdateBinaryHeap.push(value, reference)`: raises `ValueError` when
`push_fast` reports an out-of-range reference. -/
def push (value : VALUE_T) (reference : Int) (x : FastUpdateBinaryHeap) :
    Except PyErr FastUpdateBinaryHeap :=
  let p := push_fast value reference x
  if p.1 = -1 then .error (.valueError "reference outside of range [0, max_reference]")
  else .ok p.2

/-- `FastUpdateBinaryHeap.push_if_lower_fast(value, reference)` together with
its wrapper `push_if_lower`: out-of-range references raise `ValueError`;
a present reference is overwritten only when the new value is strictly lower
(`values[i] > value`); the returned Boolean is the functionalised `_pushed`
flag that the wrapper turns into its result. -/
def push_if_lower (value : VALUE_T) (reference : Int) (x : FastUpdateBinaryHeap) :
    Except PyErr (Bool × FastUpdateBinaryHeap) :=
  if ¬ (0 ≤ reference ∧ reference ≤ (x.max_reference : Int)) then
    .error (.valueError "reference outside of range [0, max_reference]")
  else
    let ir := x.crossref.getD reference.toNat (-1)
    if ir ≠ -1 then
      let i := (2 ^ x.base.levels - 1) + ir.toNat
      if value < x.base.values.getD i inf then
        let values := update_one x.base.levels (x.base.values.set i value) i
        .ok (true, { x with base := { x.base with values := values } })
      else
        .ok (false, x)
    else
      let pb := BinaryHeap.push_fast value reference x.base
      .ok (true, { x with base := pb.2,
                          crossref := setIdx x.crossref reference (((pb.1 : Int))) })

/-- `FastUpdateBinaryHeap.value_of_fast(reference)`: *no* range check — the
read `self._crossref[reference]` is an out-of-bounds access (`PyOutcome.undef`)
for a reference outside `[0, max_reference]`.  Returns the value together with
the functionalised `_invalid_ref` flag. -/
def value_of_fast (x : FastUpdateBinaryHeap) (reference : Int) :
    PyOutcome (VALUE_T × Bool) :=
  if 0 ≤ reference ∧ reference.toNat < x.crossref.length then
    let ir := x.crossref.getD reference.toNat (-1)
    if ir = -1 then .ok (inf, true)
    else .ok (x.base.values.getD ((2 ^ x.base.levels - 1) + ir.toNat) inf, false)
  else (.undef)

/-- `FastUpdateBinaryHeap.value_of(reference)`: raises `ValueError` when the
`_invalid_ref` flag is set. -/
def value_of (x : FastUpdateBinaryHeap) (reference : Int) : PyOutcome VALUE_T :=
  match value_of_fast x reference with
  | .ok (v, invalid) => if invalid then .exn (.valueError "invalid reference") else .ok v
  | .exn e => .exn e
  | .undef => .undef

end FastUpdateBinaryHeap

/-! ### Generic list read/write lemmas -/

theorem getD_set_eq {α : Type} (l : List α) (i : Nat) (x d : α) (h : i < l.length) :
    (l.set i x).getD i d = x := by
  simp [List.getD_eq_getElem?_getD, List.getElem?_set_self h]

theorem getD_set_ne {α : Type} (l : List α) {i j : Nat} (x d : α) (h : i ≠ j) :
    (l.set i x).getD j d = l.getD j d := by
  simp [List.getD_eq_getElem?_getD, List.getElem?_set_ne h]

theorem getD_replicate_self {α : Type} (n m : Nat) (a : α) :
    (List.replicate n a).getD m a = a := by
  simp [List.getD_eq_getElem?_getD, List.getElem?_replicate]
  split <;> rfl

theorem if_lt_eq_min (a b : VALUE_T) : (if a < b then a else b) = min a b := by
  by_cases h : a < b
  · simp [h, min_eq_left h.le]
  · simp [h, min_eq_right (not_lt.mp h)]

/-! ### The tournament invariant on absolute indices -/

/-- Internal node `n` holds the minimum of its two children. -/
def nodeOK (vs : List VALUE_T) (n : Nat) : Prop :=
  vs.getD n inf = min (vs.getD (2 * n + 1) inf) (vs.getD (2 * n + 2) inf)

instance (vs : List VALUE_T) (n : Nat) : Decidable (nodeOK vs n) := by
  unfold nodeOK; infer_instance

/-- Invariant I1 restricted to the levels the code maintains: every internal
node of levels `1 .. L-1` (absolute indices `1 .. 2^L - 2`) holds the minimum
of its children.  (The code never writes the level-0 root slot.) -/
def inv1 (L : Nat) (vs : List VALUE_T) : Prop :=
  ∀ n, n < 2 ^ L - 1 → 1 ≤ n → nodeOK vs n

/-! ### Lemmas about `_update_one` -/

theorem updateOneAux_length : ∀ (k : Nat) (vs : List VALUE_T) (i : Nat),
    (updateOneAux k vs i).length = vs.length := by
  intro k
  induction k with
  | zero => intro vs i; rfl
  | succ k ih => intro vs i; simp [updateOneAux, ih, List.length_set]

theorem update_one_length (L : Nat) (vs : List VALUE_T) (i : Nat) :
    (update_one L vs i).length = vs.length := updateOneAux_length _ _ _

theorem updateOneAux_frame : ∀ (k : Nat) (vs : List VALUE_T) (i j : Nat) (d : VALUE_T),
    (i - 1) / 2 < j → (updateOneAux k vs i).getD j d = vs.getD j d := by
  intro k
  induction k with
  | zero => intro vs i j d _; rfl
  | succ k ih =>
    intro vs i j d hj
    have hle : (if (i - 1) / 2 % 2 = 1 then (i - 1) / 2 else (i - 1) / 2 - 1) ≤ (i - 1) / 2 := by
      split <;> omega
    show (updateOneAux k _ _).getD j d = vs.getD j d
    rw [ih _ _ _ _ (by omega), getD_set_ne _ _ _ (by omega)]

theorem updateOneAux_set_comm : ∀ (k : Nat) (vs : List VALUE_T) (i j : Nat) (x : VALUE_T),
    i + 1 < j → updateOneAux k (vs.set j x) i = (updateOneAux k vs i).set j x := by
  intro k
  induction k with
  | zero => intro vs i j x _; rfl
  | succ k ih =>
    intro vs i j x hj
    have hle : (if (i - 1) / 2 % 2 = 1 then (i - 1) / 2 else (i - 1) / 2 - 1) ≤ (i - 1) / 2 := by
      split <;> omega
    show updateOneAux k _ _ = (updateOneAux k _ _).set j x
    rw [getD_set_ne _ _ _ (by omega : j ≠ i), getD_set_ne _ _ _ (by omega : j ≠ i + 1),
        List.set_comm _ _ _ (by omega : j ≠ (i - 1) / 2), ih _ _ _ _ (by omega)]

theorem two_le_two_pow {k : Nat} (h : 1 ≤ k) : 2 ≤ 2 ^ k := by
  calc 2 = 2 ^ 1 := rfl
  _ ≤ 2 ^ k := Nat.pow_le_pow_right (by norm_num) h

theorem two_pow_succ (k : Nat) : 2 ^ (k + 1) = 2 * 2 ^ k := by
  rw [pow_succ]; ring

/-- Main repair lemma for `_update_one`: starting from an odd index `i` whose
pair sits inside level `k+1`, if every internal node of the `L`-level tree
other than the parent of that pair is correct, then after the remaining `k`
iterations every internal node is correct. -/
theorem updateOneAux_inv (L : Nat) : ∀ (k : Nat) (vs : List VALUE_T) (i : Nat),
    k + 1 ≤ L → vs.length = 2 * 2 ^ L →
    i % 2 = 1 → 2 ^ (k + 1) - 1 ≤ i → i + 1 ≤ 2 ^ (k + 2) - 2 →
    (∀ n, n < 2 ^ L - 1 → 1 ≤ n → n ≠ (i - 1) / 2 → nodeOK vs n) →
    ∀ n, n < 2 ^ L - 1 → 1 ≤ n → nodeOK (updateOneAux k vs i) n := by
  intro k
  induction k with
  | zero =>
    intro vs i _ _ hodd hlo hhi hyp n hn hn1
    have hi1 : i = 1 := by omega
    exact hyp n hn hn1 (by omega)
  | succ k ih =>
    intro vs i hkL hlen hodd hlo hhi hyp n hn hn1
    have hp0 : 2 ^ (k + 1) = 2 * 2 ^ k := two_pow_succ _
    have hp2 : 2 ^ (k + 2) = 2 * 2 ^ (k + 1) := by ring
    have hpa : 2 ^ (k + 1 + 1) = 2 * 2 ^ (k + 1) := by ring
    have hpb : 2 ^ (k + 1 + 2) = 4 * 2 ^ (k + 1) := by ring
    have hp1 : 2 ≤ 2 ^ (k + 1) := two_le_two_pow (by omega)
    have hpL : 2 ^ (k + 2) ≤ 2 ^ L := Nat.pow_le_pow_right (by norm_num) hkL
    have hieq : i = 2 * ((i - 1) / 2) + 1 := by omega
    have hiilo : 2 ^ (k + 1) - 1 ≤ (i - 1) / 2 := by omega
    have hiihi : (i - 1) / 2 ≤ 2 ^ (k + 2) - 2 := by omega
    have hiilen : (i - 1) / 2 < vs.length := by omega
    have hfacts : (if (i - 1) / 2 % 2 = 1 then (i - 1) / 2 else (i - 1) / 2 - 1) % 2 = 1 ∧
        (if (i - 1) / 2 % 2 = 1 then (i - 1) / 2 else (i - 1) / 2 - 1) ≤ (i - 1) / 2 ∧
        2 ^ (k + 1) - 1 ≤ (if (i - 1) / 2 % 2 = 1 then (i - 1) / 2 else (i - 1) / 2 - 1) ∧
        (if (i - 1) / 2 % 2 = 1 then (i - 1) / 2 else (i - 1) / 2 - 1) + 1 ≤ 2 ^ (k + 2) - 2 ∧
        ((if (i - 1) / 2 % 2 = 1 then (i - 1) / 2 else (i - 1) / 2 - 1) - 1) / 2
          = ((i - 1) / 2 - 1) / 2 := by
      split <;> omega
    obtain ⟨hf1, hf2, hf3, hf4, hf5⟩ := hfacts
    simp only [updateOneAux]
    refine ih _ _ (by omega) (by rw [List.length_set]; exact hlen) hf1 hf3 (by omega) ?_ n hn hn1
    intro n' hn' hn'1 hne
    rw [hf5] at hne
    rcases eq_or_ne n' ((i - 1) / 2) with rfl | hne2
    · -- the freshly written parent: its children are exactly the pair (i, i+1)
      unfold nodeOK
      rw [getD_set_eq _ _ _ _ hiilen,
          getD_set_ne _ _ _ (by omega : (i - 1) / 2 ≠ 2 * ((i - 1) / 2) + 1),
          getD_set_ne _ _ _ (by omega : (i - 1) / 2 ≠ 2 * ((i - 1) / 2) + 2),
          (by omega : 2 * ((i - 1) / 2) + 1 = i), (by omega : 2 * ((i - 1) / 2) + 2 = i + 1)]
      exact if_lt_eq_min _ _
    · -- untouched internal nodes keep their correctness
      have hold : nodeOK vs n' := hyp n' hn' hn'1 (by omega)
      unfold nodeOK at hold ⊢
      rw [getD_set_ne _ _ _ (by omega : (i - 1) / 2 ≠ n'),
          getD_set_ne _ _ _ (by omega : (i - 1) / 2 ≠ 2 * n' + 1),
          getD_set_ne _ _ _ (by omega : (i - 1) / 2 ≠ 2 * n' + 2)]
      exact hold

/-- Applied form: a state that differs from an `inv1` state only inside one
leaf pair `(b, b+1)` regains `inv1` after `_update_one` at an index of that
pair. -/
theorem update_one_inv (L : Nat) (vs vs' : List VALUE_T) (b i : Nat)
    (hL : 1 ≤ L) (hlen' : vs'.length = 2 * 2 ^ L)
    (hinv : inv1 L vs)
    (hbodd : b % 2 = 1) (hblo : 2 ^ L - 1 ≤ b) (hbhi : b + 1 ≤ 2 ^ (L + 1) - 2)
    (hagree : ∀ j, j ≠ b → j ≠ b + 1 → vs'.getD j inf = vs.getD j inf)
    (hodd : oddify i = b) :
    inv1 L (update_one L vs' i) := by
  intro n hn hn1
  have hpL : 2 ^ (L + 1) = 2 * 2 ^ L := two_pow_succ _
  obtain ⟨L', rfl⟩ : ∃ L', L = L' + 1 := ⟨L - 1, by omega⟩
  have hq1 : 2 ^ (L' + 1 + 1) = 2 * 2 ^ (L' + 1) := by ring
  have hq2 : 2 ^ (L' + 2) = 2 * 2 ^ (L' + 1) := by ring
  have hq3 : 2 ≤ 2 ^ (L' + 1) := two_le_two_pow (by omega)
  have hb1 : b = 2 * ((b - 1) / 2) + 1 := by omega
  unfold update_one
  rw [hodd]
  refine updateOneAux_inv (L' + 1) L' vs' b (by omega) hlen' hbodd hblo (by omega) ?_ n hn hn1
  intro n' hn' hn'1 hne
  have hold : nodeOK vs n' := hinv n' hn' hn'1
  unfold nodeOK at hold ⊢
  rw [hagree n' (by omega) (by omega),
      hagree (2 * n' + 1) (by omega) (by omega),
      hagree (2 * n' + 2) (by omega) (by omega)]
  exact hold

/-! ### Lemmas about `_update` (full rebuild) and the copy loops -/

theorem updatePairs_length : ∀ (k : Nat) (vs : List VALUE_T) (i : Nat),
    (updatePairs k vs i).length = vs.length := by
  intro k
  induction k with
  | zero => intro vs i; rfl
  | succ k ih => intro vs i; simp [updatePairs, ih, List.length_set]

theorem updatePairs_frame_ge : ∀ (k : Nat) (vs : List VALUE_T) (i j : Nat) (d : VALUE_T),
    i % 2 = 1 → (i - 1) / 2 + k ≤ j → (updatePairs k vs i).getD j d = vs.getD j d := by
  intro k
  induction k with
  | zero => intro vs i j d _ _; rfl
  | succ k ih =>
    intro vs i j d hodd hj
    have hieq : i = 2 * ((i - 1) / 2) + 1 := by omega
    show (updatePairs k _ _).getD j d = vs.getD j d
    rw [ih _ _ _ _ (by omega) (by omega), getD_set_ne _ _ _ (by omega)]

theorem updatePairs_frame_lt : ∀ (k : Nat) (vs : List VALUE_T) (i j : Nat) (d : VALUE_T),
    j < (i - 1) / 2 → (updatePairs k vs i).getD j d = vs.getD j d := by
  intro k
  induction k with
  | zero => intro vs i j d _; rfl
  | succ k ih =>
    intro vs i j d hj
    show (updatePairs k _ _).getD j d = vs.getD j d
    rw [ih _ _ _ _ (by omega), getD_set_ne _ _ _ (by omega)]

theorem updatePairs_write : ∀ (k : Nat) (vs : List VALUE_T) (i t : Nat),
    i % 2 = 1 → t < k → (i - 1) / 2 + t < vs.length →
    (updatePairs k vs i).getD ((i - 1) / 2 + t) inf
      = min (vs.getD (i + 2 * t) inf) (vs.getD (i + 2 * t + 1) inf) := by
  intro k
  induction k with
  | zero => intro vs i t _ ht; omega
  | succ k ih =>
    intro vs i t hodd ht hlen
    have hieq : i = 2 * ((i - 1) / 2) + 1 := by omega
    show (updatePairs k _ _).getD _ inf = _
    rcases Nat.eq_zero_or_pos t with rfl | htpos
    · rw [updatePairs_frame_lt _ _ _ _ _ (by omega)]
      simp only [Nat.add_zero, Nat.mul_zero]
      rw [getD_set_eq _ _ _ _ (by omega), if_lt_eq_min]
    · obtain ⟨t', rfl⟩ : ∃ t', t = t' + 1 := ⟨t - 1, by omega⟩
      have e1 : (i - 1) / 2 + (t' + 1) = (i + 2 - 1) / 2 + t' := by omega
      rw [e1, ih _ _ _ (by omega) (by omega) (by rw [List.length_set]; omega),
          getD_set_ne _ _ _ (by omega), getD_set_ne _ _ _ (by omega),
          (by ring : i + 2 + 2 * t' = i + 2 * (t' + 1))]

theorem updateDown_length : ∀ (ℓ : Nat) (vs : List VALUE_T),
    (updateDown ℓ vs).length = vs.length := by
  intro ℓ
  induction ℓ with
  | zero => intro vs; rfl
  | succ l ih =>
    intro vs
    match l, ih with
    | 0, _ => rfl
    | l' + 1, ih => simp [updateDown, ih, updatePairs_length]

/-- After the passes of `_update` from level `ℓ` downwards, given that the
levels `ℓ .. L-1` are already correct, every internal node is correct, and no
slot at absolute index `≥ 2^ℓ - 1` has changed. -/
theorem updateDown_inv (L : Nat) : ∀ (ℓ : Nat), 1 ≤ ℓ → ℓ ≤ L → ∀ (vs : List VALUE_T),
    vs.length = 2 * 2 ^ L →
    (∀ n, 2 ^ ℓ - 1 ≤ n → n < 2 ^ L - 1 → nodeOK vs n) →
    (∀ n, 1 ≤ n → n < 2 ^ L - 1 → nodeOK (updateDown ℓ vs) n) ∧
    (∀ j d, 2 ^ ℓ - 1 ≤ j → (updateDown ℓ vs).getD j d = vs.getD j d) := by
  intro ℓ
  induction ℓ with
  | zero => intro h1; exact absurd h1 (by norm_num)
  | succ l ihl =>
    intro _ hL vs hlen hyp
    match l, ihl with
    | 0, _ =>
      exact ⟨fun n hn1 hn => hyp n (by omega) hn, fun j d _ => rfl⟩
    | l' + 1, ihl =>
      have hq1 : 2 ^ (l' + 2) = 2 * 2 ^ (l' + 1) := by ring
      have hq2 : 2 ^ (l' + 1 + 1) = 2 * 2 ^ (l' + 1) := by ring
      have hq3 : 2 ≤ 2 ^ (l' + 1) := two_le_two_pow (by omega)
      have hpL : 2 ^ (l' + 2) ≤ 2 ^ L := Nat.pow_le_pow_right (by norm_num) hL
      have hodd0 : (2 ^ (l' + 2) - 1) % 2 = 1 := by omega
      have hpar : (2 ^ (l' + 2) - 1 - 1) / 2 = 2 ^ (l' + 1) - 1 := by omega
      have hstep : updateDown (l' + 1 + 1) vs
          = updateDown (l' + 1) (updatePairs (2 ^ (l' + 1)) vs (2 ^ (l' + 2) - 1)) := rfl
      have hlen1 : (updatePairs (2 ^ (l' + 1)) vs (2 ^ (l' + 2) - 1)).length = 2 * 2 ^ L := by
        rw [updatePairs_length]; exact hlen
      have hmid : ∀ n, 2 ^ (l' + 1) - 1 ≤ n → n < 2 ^ L - 1 →
          nodeOK (updatePairs (2 ^ (l' + 1)) vs (2 ^ (l' + 2) - 1)) n := by
        intro n hn1 hn2
        unfold nodeOK
        rw [updatePairs_frame_ge (2 ^ (l' + 1)) vs (2 ^ (l' + 2) - 1) (2 * n + 1) inf hodd0
              (by omega),
            updatePairs_frame_ge (2 ^ (l' + 1)) vs (2 ^ (l' + 2) - 1) (2 * n + 2) inf hodd0
              (by omega)]
        rcases Nat.lt_or_ge n (2 ^ (l' + 2) - 1) with hcase | hcase
        · -- a freshly written level-(l'+1) node
          conv_lhs =>
            rw [show n = (2 ^ (l' + 2) - 1 - 1) / 2 + (n - (2 ^ (l' + 1) - 1)) from by omega]
          rw [updatePairs_write (2 ^ (l' + 1)) vs (2 ^ (l' + 2) - 1) (n - (2 ^ (l' + 1) - 1))
                hodd0 (by omega) (by omega),
              show 2 ^ (l' + 2) - 1 + 2 * (n - (2 ^ (l' + 1) - 1)) = 2 * n + 1 from by omega]
        · -- an untouched node of a level at or above the one just written
          have hold := hyp n (by omega) hn2
          unfold nodeOK at hold
          rw [updatePairs_frame_ge (2 ^ (l' + 1)) vs (2 ^ (l' + 2) - 1) n inf hodd0 (by omega)]
          exact hold
      have hrec := ihl (by omega) (by omega) _ hlen1 hmid
      refine ⟨fun n hn1 hn => ?_, fun j d hj => ?_⟩
      · rw [hstep]; exact hrec.1 n hn1 hn
      · rw [hstep, hrec.2 j d (by omega),
            updatePairs_frame_ge (2 ^ (l' + 1)) vs (2 ^ (l' + 2) - 1) j d hodd0 (by omega)]

/-- Full rebuild: `_update` establishes the tournament invariant from any leaf
contents, changing no leaf slot. -/
theorem updateDown_rebuild (L : Nat) (vs : List VALUE_T) (hL : 1 ≤ L)
    (hlen : vs.length = 2 * 2 ^ L) :
    inv1 L (updateDown L vs) ∧ ∀ j d, 2 ^ L - 1 ≤ j → (updateDown L vs).getD j d = vs.getD j d := by
  have h := updateDown_inv L L hL le_rfl vs hlen (fun n hn1 hn2 => by omega)
  exact ⟨fun n hn hn1 => h.1 n hn1 hn, h.2⟩

theorem copyVals_length : ∀ (n : Nat) (dst src : List VALUE_T) (d s : Nat),
    (copyVals n dst src d s).length = dst.length := by
  intro n
  induction n with
  | zero => intro dst src d s; rfl
  | succ n ih => intro dst src d s; simp [copyVals, ih, List.length_set]

theorem copyVals_getD : ∀ (n : Nat) (dst src : List VALUE_T) (d s j : Nat),
    d + n ≤ dst.length →
    (copyVals n dst src d s).getD j inf =
      if d ≤ j ∧ j < d + n then src.getD (s + (j - d)) inf else dst.getD j inf := by
  intro n
  induction n with
  | zero =>
    intro dst src d s j _
    rw [if_neg (by omega)]; rfl
  | succ n ih =>
    intro dst src d s j hlen
    show (copyVals n _ _ _ _).getD j inf = _
    rw [ih _ _ _ _ _ (by rw [List.length_set]; omega)]
    rcases eq_or_ne j d with rfl | hne
    · rw [if_neg (by omega), if_pos (by omega), getD_set_eq _ _ _ _ (by omega)]
      simp
    · by_cases hin : d + 1 ≤ j ∧ j < d + 1 + n
      · rw [if_pos hin, if_pos (by omega), (by omega : s + 1 + (j - (d + 1)) = s + (j - d))]
      · rw [if_neg hin, if_neg (by omega), getD_set_ne _ _ _ (Ne.symm hne)]

theorem copyRefs_length : ∀ (n : Nat) (dst src : List Int) (p : Nat),
    (copyRefs n dst src p).length = dst.length := by
  intro n
  induction n with
  | zero => intro dst src p; rfl
  | succ n ih => intro dst src p; simp [copyRefs, ih, List.length_set]

theorem copyRefs_getD : ∀ (n : Nat) (dst src : List Int) (p j : Nat),
    p + n ≤ dst.length →
    (copyRefs n dst src p).getD j (-1) =
      if p ≤ j ∧ j < p + n then src.getD j (-1) else dst.getD j (-1) := by
  intro n
  induction n with
  | zero =>
    intro dst src p j _
    rw [if_neg (by omega)]; rfl
  | succ n ih =>
    intro dst src p j hlen
    show (copyRefs n _ _ _).getD j (-1) = _
    rw [ih _ _ _ _ (by rw [List.length_set]; omega)]
    rcases eq_or_ne j p with rfl | hne
    · rw [if_neg (by omega), if_pos (by omega), getD_set_eq _ _ _ _ (by omega)]
    · by_cases hin : p + 1 ≤ j ∧ j < p + 1 + n
      · rw [if_pos hin, if_pos (by omega)]
      · rw [if_neg hin, if_neg (by omega), getD_set_ne _ _ _ (Ne.symm hne)]

/-! ### Minimum over a range of leaves, and what the internal nodes hold -/

/-- Minimum of the leaf slots `a, a+1, ..., a+n-1` of an `L`-level tree. -/
def rangeMin (L : Nat) (vs : List VALUE_T) : Nat → Nat → VALUE_T
  | _, 0 => ⊤
  | a, n + 1 => min (vs.getD (2 ^ L - 1 + a) inf) (rangeMin L vs (a + 1) n)

theorem rangeMin_le (L : Nat) (vs : List VALUE_T) : ∀ (n a r : Nat), a ≤ r → r < a + n →
    rangeMin L vs a n ≤ vs.getD (2 ^ L - 1 + r) inf := by
  intro n
  induction n with
  | zero => intro a r _ _; omega
  | succ n ih =>
    intro a r h1 h2
    rcases eq_or_ne r a with rfl | hne
    · exact min_le_left _ _
    · exact le_trans (min_le_right _ _) (ih (a + 1) r (by omega) (by omega))

theorem rangeMin_split (L : Nat) (vs : List VALUE_T) : ∀ (m a n : Nat),
    rangeMin L vs a (m + n) = min (rangeMin L vs a m) (rangeMin L vs (a + m) n) := by
  intro m
  induction m with
  | zero =>
    intro a n
    rw [Nat.zero_add]
    show rangeMin L vs a n = min ⊤ (rangeMin L vs a n)
    rw [min_eq_right le_top]
  | succ m ih =>
    intro a n
    rw [show m + 1 + n = (m + n) + 1 from by omega]
    show min _ (rangeMin L vs (a + 1) (m + n)) = _
    rw [ih (a + 1) n, ← min_assoc, show a + 1 + m = a + (m + 1) from by omega]
    rfl

theorem rangeMin_attained (L : Nat) (vs : List VALUE_T) : ∀ (n a : Nat), 1 ≤ n →
    ∃ r, a ≤ r ∧ r < a + n ∧ vs.getD (2 ^ L - 1 + r) inf = rangeMin L vs a n := by
  intro n
  induction n with
  | zero => intro a h; omega
  | succ n ih =>
    intro a _
    rcases Nat.eq_zero_or_pos n with rfl | hn
    · exact ⟨a, le_rfl, by omega, by show _ = min _ ⊤; rw [min_eq_left le_top]⟩
    · rcases le_total (vs.getD (2 ^ L - 1 + a) inf) (rangeMin L vs (a + 1) n) with hle | hle
      · exact ⟨a, le_rfl, by omega, by show _ = min _ _; rw [min_eq_left hle]⟩
      · obtain ⟨r, hr1, hr2, hr3⟩ := ih (a + 1) hn
        exact ⟨r, by omega, by omega, by show _ = min _ _; rw [min_eq_right hle]; exact hr3⟩

theorem rangeMin_top (L : Nat) (vs : List VALUE_T) : ∀ (n a : Nat),
    (∀ r, a ≤ r → r < a + n → vs.getD (2 ^ L - 1 + r) inf = inf) → rangeMin L vs a n = ⊤ := by
  intro n
  induction n with
  | zero => intro a _; rfl
  | succ n ih =>
    intro a hall
    show min _ _ = ⊤
    rw [hall a le_rfl (by omega), ih (a + 1) (fun r h1 h2 => hall r (by omega) (by omega))]
    simp [inf]

/-- Under the tournament invariant, the node at level `l`, position `p` holds
the minimum of the `2^d` leaves below it (`l + d = L`). -/
theorem node_eq_rangeMin (L : Nat) (vs : List VALUE_T) (hinv : inv1 L vs) :
    ∀ (d l p : Nat), l + d = L → 1 ≤ l → p < 2 ^ l →
    vs.getD (2 ^ l - 1 + p) inf = rangeMin L vs (p * 2 ^ d) (2 ^ d) := by
  intro d
  induction d with
  | zero =>
    intro l p hlL hl hp
    have hl' : l = L := by omega
    subst hl'
    show _ = min _ ⊤
    rw [min_eq_left le_top, show p * 2 ^ 0 = p from by omega]
  | succ d ih =>
    intro l p hlL hl hp
    have hb1 : 2 ^ (l + 1) = 2 * 2 ^ l := by ring
    have hb2 : 2 ^ (l + 1) ≤ 2 ^ L := Nat.pow_le_pow_right (by norm_num) (by omega)
    have hb3 : 2 ≤ 2 ^ l := two_le_two_pow hl
    have hnode := hinv (2 ^ l - 1 + p) (by omega) (by omega)
    unfold nodeOK at hnode
    rw [hnode,
        show 2 * (2 ^ l - 1 + p) + 1 = 2 ^ (l + 1) - 1 + 2 * p from by omega,
        show 2 * (2 ^ l - 1 + p) + 2 = 2 ^ (l + 1) - 1 + (2 * p + 1) from by omega,
        ih (l + 1) (2 * p) (by omega) (by omega) (by omega),
        ih (l + 1) (2 * p + 1) (by omega) (by omega) (by omega),
        show (2 : Nat) ^ (d + 1) = 2 ^ d + 2 ^ d from by ring,
        rangeMin_split L vs (2 ^ d) (p * (2 ^ d + 2 ^ d)) (2 ^ d),
        show p * (2 ^ d + 2 ^ d) = 2 * p * 2 ^ d from by ring,
        show 2 * p * 2 ^ d + 2 ^ d = (2 * p + 1) * 2 ^ d from by ring]

/-- The minimum over all `2^levels` leaf slots. -/
def BinaryHeap.slotsMin (h : BinaryHeap) : VALUE_T :=
  rangeMin h.levels h.values 0 (2 ^ h.levels)

/-- The largest leaf position holding the minimum value. -/
def BinaryHeap.rightmostMin (h : BinaryHeap) : Nat :=
  Nat.findGreatest (fun r => h.values.getD (2 ^ h.levels - 1 + r) inf = h.slotsMin)
    (2 ^ h.levels - 1)

/-- The search loop of `pop_fast`: under the invariant it arrives at a pair
whose minimum is the global minimum, with no minimal leaf to the right of the
pair. -/
theorem descendAux_spec (L : Nat) (vs : List VALUE_T) (hinv : inv1 L vs) :
    ∀ (k ℓ i p : Nat), k + ℓ = L → 1 ≤ ℓ →
    i = 2 ^ ℓ - 1 + p → p % 2 = 0 → p + 1 < 2 ^ ℓ →
    min (vs.getD i inf) (vs.getD (i + 1) inf) = rangeMin L vs 0 (2 ^ L) →
    (∀ r, (p + 2) * 2 ^ k ≤ r → r < 2 ^ L → vs.getD (2 ^ L - 1 + r) inf ≠ rangeMin L vs 0 (2 ^ L)) →
    ∃ q, BinaryHeap.descendAux k vs i = 2 ^ L - 1 + q ∧ q % 2 = 0 ∧ q + 1 < 2 ^ L ∧
      min (vs.getD (2 ^ L - 1 + q) inf) (vs.getD (2 ^ L - 1 + q + 1) inf)
        = rangeMin L vs 0 (2 ^ L) ∧
      (∀ r, q + 2 ≤ r → r < 2 ^ L → vs.getD (2 ^ L - 1 + r) inf ≠ rangeMin L vs 0 (2 ^ L)) := by
  intro k
  induction k with
  | zero =>
    intro ℓ i p hkl h1 hi hp hpb ha hb
    have hℓ : ℓ = L := by omega
    subst hℓ
    subst hi
    exact ⟨p, rfl, hp, hpb, ha, fun r h1 h2 => hb r (by omega) h2⟩
  | succ k ih =>
    intro ℓ i p hkl h1 hi hp hpb ha hb
    have hb1 : 2 ^ (ℓ + 1) = 2 * 2 ^ ℓ := by ring
    have hb2 : 2 ^ (ℓ + 1) ≤ 2 ^ L := Nat.pow_le_pow_right (by norm_num) (by omega)
    have hb3 : 2 ≤ 2 ^ ℓ := two_le_two_pow h1
    have hd1 : ℓ + (k + 1) = L := by omega
    show ∃ q, (if vs.getD i inf < vs.getD (i + 1) inf
               then BinaryHeap.descendAux k vs (i * 2 + 1)
               else BinaryHeap.descendAux k vs ((i + 1) * 2 + 1))
              = 2 ^ L - 1 + q ∧ _
    by_cases hlt : vs.getD i inf < vs.getD (i + 1) inf
    · rw [if_pos hlt]
      have hvi : vs.getD i inf = rangeMin L vs 0 (2 ^ L) := by
        rw [← ha, min_eq_left hlt.le]
      have hnode := hinv i (by omega) (by omega)
      unfold nodeOK at hnode
      have ha' : min (vs.getD (i * 2 + 1) inf) (vs.getD (i * 2 + 1 + 1) inf)
          = rangeMin L vs 0 (2 ^ L) := by
        rw [show i * 2 + 1 + 1 = 2 * i + 2 from by ring, show i * 2 + 1 = 2 * i + 1 from by ring,
            ← hnode, hvi]
      have hsib : vs.getD (i + 1) inf = rangeMin L vs ((p + 1) * 2 ^ (k + 1)) (2 ^ (k + 1)) := by
        have hx := node_eq_rangeMin L vs hinv (k + 1) ℓ (p + 1) hd1 h1 (by omega)
        rw [← hx, hi, show 2 ^ ℓ - 1 + p + 1 = 2 ^ ℓ - 1 + (p + 1) from by omega]
      refine ih (ℓ + 1) (i * 2 + 1) (2 * p) (by omega) (by omega) (by omega) (by omega)
        (by omega) ha' ?_
      intro r hr1 hr2
      rcases Nat.lt_or_ge r ((p + 2) * 2 ^ (k + 1)) with hc | hc
      · -- leaves under the right sibling are all strictly above the minimum
        have hge : rangeMin L vs ((p + 1) * 2 ^ (k + 1)) (2 ^ (k + 1))
            ≤ vs.getD (2 ^ L - 1 + r) inf := by
          refine rangeMin_le L vs (2 ^ (k + 1)) ((p + 1) * 2 ^ (k + 1)) r ?_ ?_
          · have he : (2 * p + 2) * 2 ^ k = (p + 1) * 2 ^ (k + 1) := by ring
            omega
          · have he : (p + 1) * 2 ^ (k + 1) + 2 ^ (k + 1) = (p + 2) * 2 ^ (k + 1) := by ring
            omega
        intro heq
        rw [heq, ← hsib] at hge
        exact absurd (lt_of_lt_of_le hlt hge) (by rw [hvi]; exact lt_irrefl _)
      · exact hb r (by omega) hr2
    · rw [if_neg hlt]
      have hvi : vs.getD (i + 1) inf = rangeMin L vs 0 (2 ^ L) := by
        rw [← ha, min_eq_right (not_lt.mp hlt)]
      have hnode := hinv (i + 1) (by omega) (by omega)
      unfold nodeOK at hnode
      have ha' : min (vs.getD ((i + 1) * 2 + 1) inf) (vs.getD ((i + 1) * 2 + 1 + 1) inf)
          = rangeMin L vs 0 (2 ^ L) := by
        rw [show (i + 1) * 2 + 1 + 1 = 2 * (i + 1) + 2 from by ring,
            show (i + 1) * 2 + 1 = 2 * (i + 1) + 1 from by ring, ← hnode, hvi]
      refine ih (ℓ + 1) ((i + 1) * 2 + 1) (2 * p + 2) (by omega) (by omega) (by omega)
        (by omega) (by omega) ha' ?_
      intro r hr1 hr2
      refine hb r ?_ hr2
      have he : (2 * p + 2 + 2) * 2 ^ k = (p + 2) * 2 ^ (k + 1) := by ring
      omega

/-- What the selection phase of `pop_fast` computes: the selected absolute
index is the leaf start plus the *rightmost* minimal leaf position, and the
value there is the global minimum over all leaf slots. -/
theorem selectMinIndex_spec (h : BinaryHeap) (hL : 1 ≤ h.levels)
    (hinv : inv1 h.levels h.values) :
    h.values.getD (BinaryHeap.selectMinIndex h.levels h.values) inf = h.slotsMin ∧
    BinaryHeap.selectMinIndex h.levels h.values = 2 ^ h.levels - 1 + h.rightmostMin ∧
    h.rightmostMin < 2 ^ h.levels := by
  obtain ⟨L', hL'⟩ : ∃ L', h.levels = L' + 1 := ⟨h.levels - 1, by omega⟩
  have hb1 : 2 ^ h.levels = 2 ^ L' + 2 ^ L' := by rw [hL']; ring
  have hb3 : 1 ≤ 2 ^ L' := Nat.one_le_two_pow
  have hv1 : h.values.getD 1 inf = rangeMin h.levels h.values 0 (2 ^ L') := by
    have hx := node_eq_rangeMin h.levels h.values hinv L' 1 0 (by omega) le_rfl (by norm_num)
    rw [show 2 ^ 1 - 1 + 0 = 1 from by norm_num] at hx
    rw [hx, Nat.zero_mul]
  have hv2 : h.values.getD 2 inf = rangeMin h.levels h.values (2 ^ L') (2 ^ L') := by
    have hx := node_eq_rangeMin h.levels h.values hinv L' 1 1 (by omega) le_rfl (by norm_num)
    rw [show 2 ^ 1 - 1 + 1 = 2 from by norm_num] at hx
    rw [hx, Nat.one_mul]
  have ha : min (h.values.getD 1 inf) (h.values.getD (1 + 1) inf)
      = rangeMin h.levels h.values 0 (2 ^ h.levels) := by
    rw [show (1 : Nat) + 1 = 2 from rfl, hv1, hv2, hb1,
        rangeMin_split h.levels h.values (2 ^ L') 0 (2 ^ L'), Nat.zero_add]
  obtain ⟨q, hq1, hq2, hq3, hq4, hq5⟩ :=
    descendAux_spec h.levels h.values hinv L' 1 1 0 (by omega) le_rfl (by norm_num)
      (by norm_num) (by omega) ha (fun r hr1 hr2 => by omega)
  have hsel : BinaryHeap.selectMinIndex h.levels h.values =
      if h.values.getD (2 ^ h.levels - 1 + q) inf < h.values.getD (2 ^ h.levels - 1 + q + 1) inf
      then 2 ^ h.levels - 1 + q else 2 ^ h.levels - 1 + q + 1 := by
    unfold BinaryHeap.selectMinIndex
    rw [show h.levels - 1 = L' from by omega, hq1]
  have hsm : h.slotsMin = rangeMin h.levels h.values 0 (2 ^ h.levels) := rfl
  by_cases hlt : h.values.getD (2 ^ h.levels - 1 + q) inf
      < h.values.getD (2 ^ h.levels - 1 + q + 1) inf
  · have hval : h.values.getD (2 ^ h.levels - 1 + q) inf
        = rangeMin h.levels h.values 0 (2 ^ h.levels) := by
      rw [← hq4, min_eq_left hlt.le]
    have hrm : h.rightmostMin = q := by
      unfold BinaryHeap.rightmostMin
      rw [Nat.findGreatest_eq_iff]
      refine ⟨by omega, fun _ => by rw [hval, hsm], ?_⟩
      intro r hr1 hr2
      rcases eq_or_ne r (q + 1) with rfl | hne
      · intro heq
        rw [hsm, show 2 ^ h.levels - 1 + (q + 1) = 2 ^ h.levels - 1 + q + 1 from by omega]
          at heq
        rw [heq] at hlt
        exact absurd hval (by intro hv; rw [hv] at hlt; exact lt_irrefl _ hlt)
      · rw [hsm]
        exact hq5 r (by omega) (by omega)
    rw [hsel, if_pos hlt, hrm]
    exact ⟨by rw [hval, hsm], rfl, by omega⟩
  · have hval : h.values.getD (2 ^ h.levels - 1 + q + 1) inf
        = rangeMin h.levels h.values 0 (2 ^ h.levels) := by
      rw [← hq4, min_eq_right (not_lt.mp hlt)]
    have hrm : h.rightmostMin = q + 1 := by
      unfold BinaryHeap.rightmostMin
      rw [Nat.findGreatest_eq_iff]
      refine ⟨by omega, fun _ => ?_, ?_⟩
      · rw [hsm, show 2 ^ h.levels - 1 + (q + 1) = 2 ^ h.levels - 1 + q + 1 from by omega, hval]
      · intro r hr1 hr2
        rw [hsm]
        exact hq5 r (by omega) (by omega)
    rw [hsel, if_neg hlt, hrm]
    exact ⟨by rw [hval, hsm], by omega, by omega⟩

/-! ### Well-formedness of a heap state -/

/-- Shape and semantic invariants maintained by every reachable `BinaryHeap`
state: level bounds, buffer lengths, the capacity bound on `count`, the
tournament invariant I1, and occupancy (I2): every leaf slot at position
`≥ count` holds the sentinel. -/
def BinaryHeap.WF (h : BinaryHeap) : Prop :=
  1 ≤ h.min_levels ∧ h.min_levels ≤ h.levels ∧
  h.values.length = 2 * 2 ^ h.levels ∧
  h.references.length = 2 ^ h.levels ∧
  h.count ≤ 2 ^ h.levels ∧
  inv1 h.levels h.values ∧
  (∀ r, r < 2 ^ h.levels → h.count ≤ r → h.values.getD (2 ^ h.levels - 1 + r) inf = inf)

/-- The pair `(oddify i, oddify i + 1)` contains `i` and sits inside the leaf
level. -/
theorem oddify_mem (L i : Nat) (hL : 1 ≤ L) (h1 : 2 ^ L - 1 ≤ i) (h2 : i ≤ 2 ^ (L + 1) - 2) :
    (oddify i) % 2 = 1 ∧ 2 ^ L - 1 ≤ oddify i ∧ oddify i + 1 ≤ 2 ^ (L + 1) - 2 ∧
    (i = oddify i ∨ i = oddify i + 1) := by
  have hp : 2 ^ (L + 1) = 2 * 2 ^ L := two_pow_succ L
  have hq : 2 ≤ 2 ^ L := two_le_two_pow hL
  obtain ⟨L', rfl⟩ : ∃ L', L = L' + 1 := ⟨L - 1, by omega⟩
  have hr : 2 ^ (L' + 1) = 2 * 2 ^ L' := two_pow_succ L'
  unfold oddify
  split <;> omega

theorem update_one_leaf_frame (L : Nat) (vs : List VALUE_T) (i j : Nat) (d : VALUE_T)
    (hL : 1 ≤ L) (hi : i ≤ 2 ^ (L + 1) - 2) (hj : 2 ^ L - 1 ≤ j) :
    (update_one L vs i).getD j d = vs.getD j d := by
  have hp : 2 ^ (L + 1) = 2 * 2 ^ L := two_pow_succ L
  have hq : 2 ≤ 2 ^ L := two_le_two_pow hL
  unfold update_one oddify
  apply updateOneAux_frame
  split <;> omega

theorem update_one_set_comm (L : Nat) (vs : List VALUE_T) (i j : Nat) (x : VALUE_T)
    (hj : oddify i + 1 < j) :
    update_one L (vs.set j x) i = (update_one L vs i).set j x := by
  unfold update_one
  exact updateOneAux_set_comm _ _ _ _ _ hj

/-- Specification of `_add_or_remove_level`: the rebuilt state has the target
level count, the same `count`, fresh buffer lengths, the tournament invariant,
and leaves/references copied by relative position (when `count ≠ 0`) up to the
smaller capacity, sentinel elsewhere. -/
theorem add_or_remove_level_spec (h : BinaryHeap) (nl : Nat) (h1 : 1 ≤ nl)
    (hlv : h.values.length = 2 * 2 ^ h.levels) :
    (h.add_or_remove_level nl).levels = nl ∧
    (h.add_or_remove_level nl).min_levels = h.min_levels ∧
    (h.add_or_remove_level nl).count = h.count ∧
    (h.add_or_remove_level nl).values.length = 2 * 2 ^ nl ∧
    (h.add_or_remove_level nl).references.length = 2 ^ nl ∧
    inv1 nl (h.add_or_remove_level nl).values ∧
    (∀ r, r < 2 ^ nl →
      (h.add_or_remove_level nl).values.getD (2 ^ nl - 1 + r) inf =
        if h.count ≠ 0 ∧ r < min (2 ^ nl) (2 ^ h.levels)
        then h.values.getD (2 ^ h.levels - 1 + r) inf else inf) ∧
    (∀ t, t < 2 ^ nl →
      (h.add_or_remove_level nl).references.getD t (-1) =
        if h.count ≠ 0 ∧ t < min (2 ^ nl) (2 ^ h.levels)
        then h.references.getD t (-1) else -1) := by
  have hq : 1 ≤ 2 ^ nl := Nat.one_le_two_pow
  have hmn : min (2 ^ nl) (2 ^ h.levels) ≤ 2 ^ nl := min_le_left _ _
  have hval : (h.add_or_remove_level nl).values
      = updateDown nl (if h.count ≠ 0
          then copyVals (min (2 ^ nl) (2 ^ h.levels)) (List.replicate (2 ^ nl * 2) inf)
                 h.values (2 ^ nl - 1) (2 ^ h.levels - 1)
          else List.replicate (2 ^ nl * 2) inf) := rfl
  have href : (h.add_or_remove_level nl).references
      = (if h.count ≠ 0
         then copyRefs (min (2 ^ nl) (2 ^ h.levels)) (List.replicate (2 ^ nl) (-1))
                h.references 0
         else List.replicate (2 ^ nl) (-1)) := rfl
  have hlenv : (if h.count ≠ 0
      then copyVals (min (2 ^ nl) (2 ^ h.levels)) (List.replicate (2 ^ nl * 2) inf)
             h.values (2 ^ nl - 1) (2 ^ h.levels - 1)
      else List.replicate (2 ^ nl * 2) inf).length = 2 * 2 ^ nl := by
    by_cases hc : h.count ≠ 0
    · rw [if_pos hc, copyVals_length, List.length_replicate]; ring
    · rw [if_neg hc, List.length_replicate]; ring
  have hrb := updateDown_rebuild nl _ h1 hlenv
  refine ⟨rfl, rfl, rfl, ?_, ?_, ?_, ?_, ?_⟩
  · rw [hval, updateDown_length, hlenv]
  · rw [href]
    by_cases hc : h.count ≠ 0
    · rw [if_pos hc, copyRefs_length, List.length_replicate]
    · rw [if_neg hc, List.length_replicate]
  · rw [hval]; exact hrb.1
  · intro r hr
    rw [hval, hrb.2 _ _ (by omega)]
    by_cases hc : h.count ≠ 0
    · rw [if_pos hc, copyVals_getD _ _ _ _ _ _ (by rw [List.length_replicate]; omega)]
      by_cases hin : r < min (2 ^ nl) (2 ^ h.levels)
      · rw [if_pos (by omega), if_pos (And.intro hc hin),
            show 2 ^ h.levels - 1 + (2 ^ nl - 1 + r - (2 ^ nl - 1)) = 2 ^ h.levels - 1 + r
              from by omega]
      · rw [if_neg (by omega), if_neg (fun hx => hin hx.2), getD_replicate_self]
    · rw [if_neg hc, getD_replicate_self, if_neg (fun hx => hc hx.1)]
  · intro t ht
    rw [href]
    by_cases hc : h.count ≠ 0
    · rw [if_pos hc, copyRefs_getD _ _ _ _ _ (by rw [List.length_replicate]; omega)]
      by_cases hin : t < min (2 ^ nl) (2 ^ h.levels)
      · rw [if_pos (by omega), if_pos (And.intro hc hin)]
      · rw [if_neg (by omega), if_neg (fun hx => hin hx.2), getD_replicate_self]
    · rw [if_neg hc, getD_replicate_self, if_neg (fun hx => hc hx.1)]

/-! ### Specification of push -/

theorem push_fast_spec (v : VALUE_T) (ref : Int) (h : BinaryHeap) (hWF : h.WF) :
    ∀ p h2, BinaryHeap.push_fast v ref h = (p, h2) →
      p = h.count ∧ h2.WF ∧ h2.count = h.count + 1 ∧ h2.min_levels = h.min_levels ∧
      h.levels ≤ h2.levels ∧
      (∀ s, s < h.count → h2.leafVal s = h.leafVal s) ∧
      h2.leafVal h.count = v ∧
      (∀ s, s < h.count → h2.refAt s = h.refAt s) ∧
      h2.refAt h.count = ref := by
  obtain ⟨w1, w2, w3, w4, w5, w6, w7⟩ := hWF
  have hpow : 2 ^ (h.levels + 1) = 2 * 2 ^ h.levels := two_pow_succ _
  have hpow1 : 2 ≤ 2 ^ h.levels := two_le_two_pow (by omega)
  -- facts about the (possibly grown) intermediate state
  have H1 : ∀ h1, (if 2 ^ h.levels ≤ h.count
        then h.add_or_remove_level (h.levels + 1) else h) = h1 →
      h1.count = h.count ∧ h1.min_levels = h.min_levels ∧ h.levels ≤ h1.levels ∧
      1 ≤ h1.min_levels ∧ h1.min_levels ≤ h1.levels ∧
      h1.values.length = 2 * 2 ^ h1.levels ∧ h1.references.length = 2 ^ h1.levels ∧
      inv1 h1.levels h1.values ∧ h.count < 2 ^ h1.levels ∧
      (∀ s, s < h.count → h1.leafVal s = h.leafVal s) ∧
      (∀ s, s < h.count → h1.refAt s = h.refAt s) ∧
      (∀ r, r < 2 ^ h1.levels → h.count ≤ r → h1.leafVal r = inf) := by
    intro h1 hh1
    by_cases hg : 2 ^ h.levels ≤ h.count
    · rw [if_pos hg] at hh1
      have hcnt : h.count = 2 ^ h.levels := by omega
      have hc0 : h.count ≠ 0 := by omega
      obtain ⟨a1, a2, a3, a4, a5, a6, a7, a8⟩ :=
        add_or_remove_level_spec h (h.levels + 1) (by omega) w3
      rw [hh1] at a1 a2 a3 a4 a5 a6 a7 a8
      have e1 : 2 ^ h1.levels = 2 * 2 ^ h.levels := by rw [a1, hpow]
      have hmin : min (2 ^ (h.levels + 1)) (2 ^ h.levels) = 2 ^ h.levels :=
        min_eq_right (by omega)
      rw [hmin] at a7 a8
      rw [← a1] at a4 a5 a6 a7 a8
      refine ⟨by omega, by omega, by omega, by omega, by omega, a4, a5, a6, by omega,
        ?_, ?_, ?_⟩
      · intro s hs
        unfold BinaryHeap.leafVal
        rw [a7 s (by omega), if_pos (by omega)]
      · intro s hs
        unfold BinaryHeap.refAt
        rw [a8 s (by omega), if_pos (by omega)]
      · intro r hr1 hr2
        unfold BinaryHeap.leafVal
        rw [a7 r hr1]
        by_cases hin : r < 2 ^ h.levels
        · rw [if_pos (by omega)]
          exact w7 r hin (by omega)
        · rw [if_neg (by omega)]
    · rw [if_neg hg] at hh1
      subst hh1
      exact ⟨rfl, rfl, le_rfl, w1, w2, w3, w4, w6, by omega, fun s _ => rfl, fun s _ => rfl,
        fun r hr1 hr2 => w7 r hr1 hr2⟩
  intro p h2 hpf
  set h1 := if 2 ^ h.levels ≤ h.count then h.add_or_remove_level (h.levels + 1) else h with hh1
  obtain ⟨b1, b2, b3, b4, b5, b6, b7, b8, b9, b10, b11, b12⟩ := H1 h1 rfl
  have hpow2 : 2 ^ (h1.levels + 1) = 2 * 2 ^ h1.levels := two_pow_succ _
  have hpow3 : 2 ≤ 2 ^ h1.levels := two_le_two_pow (by omega)
  have hpf2 : BinaryHeap.push_fast v ref h =
      (h1.count, { h1 with
        values := update_one h1.levels (h1.values.set ((2 ^ h1.levels - 1) + h1.count) v)
          ((2 ^ h1.levels - 1) + h1.count),
        references := h1.references.set h1.count ref,
        count := h1.count + 1 }) := rfl
  rw [hpf2] at hpf
  obtain ⟨hp, hh2⟩ := Prod.mk.injEq .. ▸ hpf
  have hv2 : h2.values = update_one h1.levels
      (h1.values.set ((2 ^ h1.levels - 1) + h1.count) v) ((2 ^ h1.levels - 1) + h1.count) := by
    rw [← hh2]
  have hr2 : h2.references = h1.references.set h1.count ref := by rw [← hh2]
  have hc2 : h2.count = h1.count + 1 := by rw [← hh2]
  have hl2 : h2.levels = h1.levels := by rw [← hh2]
  have hm2 : h2.min_levels = h1.min_levels := by rw [← hh2]
  have hpow4 : 2 ^ h2.levels = 2 ^ h1.levels := by rw [hl2]
  have hidx : (2 ^ h1.levels - 1) + h1.count ≤ 2 ^ (h1.levels + 1) - 2 := by omega
  have hfr : ∀ s, h2.leafVal s =
      (h1.values.set ((2 ^ h1.levels - 1) + h1.count) v).getD (2 ^ h1.levels - 1 + s) inf := by
    intro s
    unfold BinaryHeap.leafVal
    rw [hl2, hv2]
    exact update_one_leaf_frame _ _ _ _ _ (by omega) hidx (by omega)
  have hob := oddify_mem h1.levels ((2 ^ h1.levels - 1) + h1.count) (by omega)
    (by omega) hidx
  refine ⟨by omega, ?_, by omega, by omega, by omega, ?_, ?_, ?_, ?_⟩
  · -- well-formedness of the new state
    refine ⟨by omega, by omega, ?_, ?_, by omega, ?_, ?_⟩
    · rw [hv2, hl2, update_one_length, List.length_set]; exact b6
    · rw [hr2, hl2, List.length_set]; exact b7
    · rw [hl2, hv2]
      refine update_one_inv h1.levels h1.values _ (oddify ((2 ^ h1.levels - 1) + h1.count))
        ((2 ^ h1.levels - 1) + h1.count) (by omega) (by rw [List.length_set]; exact b6) b8
        hob.1 hob.2.1 hob.2.2.1 ?_ rfl
      intro j hj1 hj2
      exact getD_set_ne _ _ _ (by rcases hob.2.2.2 with hx | hx <;> omega)
    · intro r hr1 hr2'
      have hx := hfr r
      unfold BinaryHeap.leafVal at hx
      rw [hl2] at hx
      rw [hl2] at hr1
      rw [hl2, hx, getD_set_ne _ _ _ (by omega)]
      exact b12 r hr1 (by omega)
  · intro s hs
    rw [hfr s, getD_set_ne _ _ _ (by omega)]
    exact b10 s hs
  · rw [hfr h.count, b1, getD_set_eq _ _ _ _ (by omega)]
  · intro s hs
    unfold BinaryHeap.refAt
    rw [hr2, getD_set_ne _ _ _ (by omega)]
    exact b11 s hs
  · unfold BinaryHeap.refAt
    rw [hr2, b1, getD_set_eq _ _ _ _ (by omega)]
/-! ### The constructor -/

theorem calcLevelsAux_ge : ∀ (f l cap : Nat), l ≤ calcLevelsAux f l cap := by
  intro f
  induction f with
  | zero => intro l cap; exact le_rfl
  | succ f ih =>
    intro l cap
    show (if 2 ^ l < cap then calcLevelsAux f (l + 1) cap else l) ≥ l
    split
    · exact le_trans (by omega) (ih (l + 1) cap)
    · exact le_rfl

theorem newBinaryHeap_WF (cap : Nat) (hcap : 2 ≤ cap) :
    (newBinaryHeap cap).WF ∧ (newBinaryHeap cap).count = 0 := by
  have hL : 1 ≤ calcLevels cap := by
    obtain ⟨c, rfl⟩ : ∃ c, cap = c + 2 := ⟨cap - 2, by omega⟩
    show 1 ≤ calcLevelsAux (c + 2) 0 (c + 2)
    have hx : calcLevelsAux (c + 2) 0 (c + 2)
        = if 2 ^ 0 < c + 2 then calcLevelsAux (c + 1) 1 (c + 2) else 0 := rfl
    rw [hx, if_pos (by norm_num)]
    exact calcLevelsAux_ge _ _ _
  have e1 : (newBinaryHeap cap).levels = calcLevels cap := rfl
  have e2 : (newBinaryHeap cap).count = 0 := rfl
  have e3 : (newBinaryHeap cap).min_levels = calcLevels cap := rfl
  have e4 : (newBinaryHeap cap).values = List.replicate (2 ^ calcLevels cap * 2) inf := rfl
  have e5 : (newBinaryHeap cap).references = List.replicate (2 ^ calcLevels cap) (-1) := rfl
  refine ⟨⟨?_, ?_, ?_, ?_, ?_, ?_, ?_⟩, e2⟩
  · rw [e3]; exact hL
  · rw [e3, e1]
  · rw [e4, e1, List.length_replicate]; ring
  · rw [e5, e1, List.length_replicate]
  · rw [e2]; exact Nat.zero_le _
  · intro n hn hn1
    unfold nodeOK
    rw [e4, getD_replicate_self, getD_replicate_self, getD_replicate_self, min_self]
  · intro r hr1 hr2
    rw [e4, getD_replicate_self]

/-! ### Specification of _remove -/

theorem remove_spec (h : BinaryHeap) (r1 : Nat) (hWF : h.WF) (hc : 1 ≤ h.count)
    (hr1 : r1 < h.count) :
    (h.remove (2 ^ h.levels - 1 + r1)).WF ∧
    (h.remove (2 ^ h.levels - 1 + r1)).count = h.count - 1 ∧
    (h.remove (2 ^ h.levels - 1 + r1)).min_levels = h.min_levels ∧
    (∀ s, s < h.count - 1 →
      (h.remove (2 ^ h.levels - 1 + r1)).leafVal s =
        if s = r1 then h.leafVal (h.count - 1) else h.leafVal s) ∧
    (∀ s, s < h.count - 1 →
      (h.remove (2 ^ h.levels - 1 + r1)).refAt s =
        if s = r1 then h.refAt (h.count - 1) else h.refAt s) := by
  obtain ⟨w1, w2, w3, w4, w5, w6, w7⟩ := hWF
  have hpw : 2 ^ (h.levels + 1) = 2 * 2 ^ h.levels := two_pow_succ _
  have hpw2 : 2 ≤ 2 ^ h.levels := two_le_two_pow (by omega)
  have hrm : h.remove (2 ^ h.levels - 1 + r1) =
      (if h.min_levels < h.levels ∧ h.count - 1 < 2 ^ (h.levels - 2) then
        BinaryHeap.add_or_remove_level
          { h with
            values := (h.values.set (2 ^ h.levels - 1 + r1)
                         (h.values.getD (2 ^ h.levels - 1 + h.count - 1) inf)).set
                       (2 ^ h.levels - 1 + h.count - 1) inf,
            references := h.references.set (2 ^ h.levels - 1 + r1 - (2 ^ h.levels - 1))
                            (h.references.getD (h.count - 1) (-1)),
            count := h.count - 1 } (h.levels - 1)
      else
        { h with
          values := update_one h.levels (update_one h.levels
              ((h.values.set (2 ^ h.levels - 1 + r1)
                  (h.values.getD (2 ^ h.levels - 1 + h.count - 1) inf)).set
                (2 ^ h.levels - 1 + h.count - 1) inf) (2 ^ h.levels - 1 + r1))
              (2 ^ h.levels - 1 + h.count - 1),
          references := h.references.set (2 ^ h.levels - 1 + r1 - (2 ^ h.levels - 1))
                          (h.references.getD (h.count - 1) (-1)),
          count := h.count - 1 }) := rfl
  rw [show 2 ^ h.levels - 1 + r1 - (2 ^ h.levels - 1) = r1 from by omega] at hrm
  set VSW := (h.values.set (2 ^ h.levels - 1 + r1)
      (h.values.getD (2 ^ h.levels - 1 + h.count - 1) inf)).set
      (2 ^ h.levels - 1 + h.count - 1) inf with hVSW
  set RSW := h.references.set r1 (h.references.getD (h.count - 1) (-1)) with hRSW
  have hswlen : VSW.length = 2 * 2 ^ h.levels := by
    rw [hVSW, List.length_set, List.length_set, w3]
  have hrlen : RSW.length = 2 ^ h.levels := by rw [hRSW, List.length_set, w4]
  have hswl : ∀ s, VSW.getD (2 ^ h.levels - 1 + s) inf =
      (if s = h.count - 1 then inf
       else if s = r1 then h.leafVal (h.count - 1) else h.leafVal s) := by
    intro s
    rcases eq_or_ne s (h.count - 1) with rfl | hne
    · rw [if_pos rfl, hVSW,
          show 2 ^ h.levels - 1 + (h.count - 1) = 2 ^ h.levels - 1 + h.count - 1 from by omega,
          getD_set_eq _ _ _ _ (by rw [List.length_set, w3]; omega)]
    · rw [if_neg hne, hVSW, getD_set_ne _ _ _ (by omega)]
      rcases eq_or_ne s r1 with rfl | hne2
      · rw [if_pos rfl, getD_set_eq _ _ _ _ (by rw [w3]; omega)]
        unfold BinaryHeap.leafVal
        rw [show 2 ^ h.levels - 1 + (h.count - 1) = 2 ^ h.levels - 1 + h.count - 1 from by omega]
      · rw [if_neg hne2, getD_set_ne _ _ _ (by omega)]
        rfl
  have hswr : ∀ t, RSW.getD t (-1) = (if t = r1 then h.refAt (h.count - 1) else h.refAt t) := by
    intro t
    rcases eq_or_ne t r1 with rfl | hne
    · rw [if_pos rfl, hRSW, getD_set_eq _ _ _ _ (by rw [w4]; omega)]
      rfl
    · rw [if_neg hne, hRSW, getD_set_ne _ _ _ (Ne.symm hne)]
      rfl
  by_cases hsh : h.min_levels < h.levels ∧ h.count - 1 < 2 ^ (h.levels - 2)
  · -- shrink one level and rebuild
    rw [if_pos hsh] at hrm
    have hL2 : 2 ≤ h.levels := by omega
    have hpm := two_pow_succ (h.levels - 1)
    rw [show h.levels - 1 + 1 = h.levels from by omega] at hpm
    have hpq := two_pow_succ (h.levels - 2)
    rw [show h.levels - 2 + 1 = h.levels - 1 from by omega] at hpq
    obtain ⟨a1, a2, a3, a4, a5, a6, a7, a8⟩ :=
      add_or_remove_level_spec
        { h with values := VSW, references := RSW, count := h.count - 1 }
        (h.levels - 1) (by omega) (by show VSW.length = 2 * 2 ^ h.levels; exact hswlen)
    have a2' : (BinaryHeap.add_or_remove_level
        { h with values := VSW, references := RSW, count := h.count - 1 }
        (h.levels - 1)).min_levels = h.min_levels := a2
    have a3' : (BinaryHeap.add_or_remove_level
        { h with values := VSW, references := RSW, count := h.count - 1 }
        (h.levels - 1)).count = h.count - 1 := a3
    have hmin : min (2 ^ (h.levels - 1)) (2 ^ h.levels) = 2 ^ (h.levels - 1) :=
      min_eq_left (by omega)
    have a7' : ∀ r, r < 2 ^ (h.levels - 1) →
        (BinaryHeap.add_or_remove_level
          { h with values := VSW, references := RSW, count := h.count - 1 }
          (h.levels - 1)).values.getD (2 ^ (h.levels - 1) - 1 + r) inf =
        if h.count - 1 ≠ 0 ∧ r < 2 ^ (h.levels - 1)
        then VSW.getD (2 ^ h.levels - 1 + r) inf else inf := by
      intro r hr
      have := a7 r hr
      rw [hmin] at this
      exact this
    have a8' : ∀ t, t < 2 ^ (h.levels - 1) →
        (BinaryHeap.add_or_remove_level
          { h with values := VSW, references := RSW, count := h.count - 1 }
          (h.levels - 1)).references.getD t (-1) =
        if h.count - 1 ≠ 0 ∧ t < 2 ^ (h.levels - 1) then RSW.getD t (-1) else -1 := by
      intro t ht
      have := a8 t ht
      rw [hmin] at this
      exact this
    refine ⟨⟨?_, ?_, ?_, ?_, ?_, ?_, ?_⟩, ?_, ?_, ?_, ?_⟩
    · rw [hrm, a2']; exact w1
    · rw [hrm, a2', a1]; omega
    · rw [hrm, a1]; exact a4
    · rw [hrm, a1]; exact a5
    · rw [hrm, a1, a3']; omega
    · rw [hrm, a1]; exact a6
    · intro r hrb hrc
      rw [hrm, a1] at hrb
      rw [hrm, a3'] at hrc
      rw [hrm, a1, a7' r hrb]
      by_cases hz : h.count - 1 = 0
      · rw [if_neg (fun hx => hx.1 hz)]
      · rw [if_pos ⟨hz, hrb⟩, hswl r]
        rcases eq_or_ne r (h.count - 1) with rfl | hner
        · rw [if_pos rfl]
        · rw [if_neg hner, if_neg (by omega)]
          exact w7 r (by omega) (by omega)
    · rw [hrm, a3']
    · rw [hrm, a2']
    · intro s hs
      unfold BinaryHeap.leafVal
      rw [hrm, a1, a7' s (by omega), if_pos ⟨by omega, by omega⟩, hswl s, if_neg (by omega)]
      rfl
    · intro s hs
      unfold BinaryHeap.refAt
      rw [hrm, a8' s (by omega), if_pos ⟨by omega, by omega⟩, hswr s]
      rfl
  · -- no shrink: local repair of the two affected paths
    rw [if_neg hsh] at hrm
    have hm1 := oddify_mem h.levels (2 ^ h.levels - 1 + r1) (by omega) (by omega) (by omega)
    have hi2e : 2 ^ h.levels - 1 + h.count - 1 = 2 ^ h.levels - 1 + (h.count - 1) := by omega
    have hm2 := oddify_mem h.levels (2 ^ h.levels - 1 + h.count - 1) (by omega) (by omega)
      (by omega)
    have hv' : (h.remove (2 ^ h.levels - 1 + r1)).values =
        update_one h.levels (update_one h.levels VSW (2 ^ h.levels - 1 + r1))
          (2 ^ h.levels - 1 + h.count - 1) := by rw [hrm]
    have hr' : (h.remove (2 ^ h.levels - 1 + r1)).references = RSW := by rw [hrm]
    have hc' : (h.remove (2 ^ h.levels - 1 + r1)).count = h.count - 1 := by rw [hrm]
    have hl' : (h.remove (2 ^ h.levels - 1 + r1)).levels = h.levels := by rw [hrm]
    have hml' : (h.remove (2 ^ h.levels - 1 + r1)).min_levels = h.min_levels := by rw [hrm]
    have hfr2 : ∀ s, (update_one h.levels (update_one h.levels VSW (2 ^ h.levels - 1 + r1))
        (2 ^ h.levels - 1 + h.count - 1)).getD (2 ^ h.levels - 1 + s) inf
        = VSW.getD (2 ^ h.levels - 1 + s) inf := by
      intro s
      rw [update_one_leaf_frame _ _ _ _ _ (by omega) (by omega) (by omega),
          update_one_leaf_frame _ _ _ _ _ (by omega) (by omega) (by omega)]
    have hinv2 : inv1 h.levels (update_one h.levels
        (update_one h.levels VSW (2 ^ h.levels - 1 + r1)) (2 ^ h.levels - 1 + h.count - 1)) := by
      by_cases hbb : oddify (2 ^ h.levels - 1 + r1) = oddify (2 ^ h.levels - 1 + h.count - 1)
      · have hW1 : inv1 h.levels (update_one h.levels VSW (2 ^ h.levels - 1 + r1)) := by
          refine update_one_inv h.levels h.values VSW (oddify (2 ^ h.levels - 1 + r1))
            (2 ^ h.levels - 1 + r1) (by omega) hswlen w6 hm1.1 hm1.2.1 hm1.2.2.1 ?_ rfl
          intro j hj1 hj2
          rw [hVSW, getD_set_ne _ _ _
                (by rcases hm2.2.2.2 with hx | hx <;> rw [← hbb] at hx <;> omega),
              getD_set_ne _ _ _ (by rcases hm1.2.2.2 with hx | hx <;> omega)]
        refine update_one_inv h.levels _ _ (oddify (2 ^ h.levels - 1 + h.count - 1))
          (2 ^ h.levels - 1 + h.count - 1) (by omega)
          (by rw [update_one_length]; exact hswlen) hW1 hm2.1 hm2.2.1 hm2.2.2.1
          (fun j _ _ => rfl) rfl
      · have horder : oddify (2 ^ h.levels - 1 + r1) + 1 < 2 ^ h.levels - 1 + h.count - 1 := by
          rcases hm1.2.2.2 with hx | hx <;> rcases hm2.2.2.2 with hy | hy <;>
            · have o1 := hm1.1
              have o2 := hm2.1
              omega
        have hcomm : update_one h.levels VSW (2 ^ h.levels - 1 + r1)
            = (update_one h.levels (h.values.set (2 ^ h.levels - 1 + r1)
                (h.values.getD (2 ^ h.levels - 1 + h.count - 1) inf)) (2 ^ h.levels - 1 + r1)).set
              (2 ^ h.levels - 1 + h.count - 1) inf := by
          rw [hVSW]
          exact update_one_set_comm _ _ _ _ _ horder
        have hW : inv1 h.levels (update_one h.levels (h.values.set (2 ^ h.levels - 1 + r1)
            (h.values.getD (2 ^ h.levels - 1 + h.count - 1) inf)) (2 ^ h.levels - 1 + r1)) := by
          refine update_one_inv h.levels h.values _ (oddify (2 ^ h.levels - 1 + r1))
            (2 ^ h.levels - 1 + r1) (by omega) (by rw [List.length_set]; exact w3) w6
            hm1.1 hm1.2.1 hm1.2.2.1 ?_ rfl
          intro j hj1 hj2
          rw [getD_set_ne _ _ _ (by rcases hm1.2.2.2 with hx | hx <;> omega)]
        rw [hcomm]
        refine update_one_inv h.levels _ _ (oddify (2 ^ h.levels - 1 + h.count - 1))
          (2 ^ h.levels - 1 + h.count - 1) (by omega)
          (by rw [List.length_set, update_one_length, List.length_set]; exact w3) hW
          hm2.1 hm2.2.1 hm2.2.2.1 ?_ rfl
        intro j hj1 hj2
        rw [getD_set_ne _ _ _ (by rcases hm2.2.2.2 with hx | hx <;> omega)]
    refine ⟨⟨?_, ?_, ?_, ?_, ?_, ?_, ?_⟩, hc', hml', ?_, ?_⟩
    · rw [hml']; exact w1
    · rw [hml', hl']; exact w2
    · rw [hv', hl', update_one_length, update_one_length]; exact hswlen
    · rw [hr', hl']; exact hrlen
    · rw [hc', hl']; omega
    · rw [hl', hv']; exact hinv2
    · intro r hrb hrc
      rw [hl'] at hrb
      rw [hc'] at hrc
      rw [hl', hv', hfr2 r, hswl r]
      rcases eq_or_ne r (h.count - 1) with rfl | hner
      · rw [if_pos rfl]
      · rw [if_neg hner, if_neg (by omega)]
        exact w7 r (by omega) (by omega)
    · intro s hs
      unfold BinaryHeap.leafVal
      rw [hl', hv', hfr2 s, hswl s, if_neg (by omega)]
      rfl
    · intro s hs
      unfold BinaryHeap.refAt
      rw [hr', hswr s]
      rfl

/-! ### Specification of pop and min_val -/

theorem pop_fast_spec (h : BinaryHeap) (hWF : h.WF) :
    (BinaryHeap.pop_fast h).1 = h.slotsMin ∧
    (BinaryHeap.pop_fast h).2.1 = h.refAt h.rightmostMin ∧
    (BinaryHeap.pop_fast h).2.2.WF ∧
    (BinaryHeap.pop_fast h).2.2.min_levels = h.min_levels ∧
    (∀ s, s < 2 ^ (BinaryHeap.pop_fast h).2.2.levels →
      h.slotsMin ≤ (BinaryHeap.pop_fast h).2.2.leafVal s) ∧
    (h.slotsMin = inf → (BinaryHeap.pop_fast h).2.2 = h) ∧
    (h.slotsMin ≠ inf →
      (BinaryHeap.pop_fast h).2.2.count = h.count - 1 ∧ h.rightmostMin < h.count ∧
      1 ≤ h.count) := by
  obtain ⟨w1, w2, w3, w4, w5, w6, w7⟩ := hWF
  obtain ⟨hs1, hs2, hs3⟩ := selectMinIndex_spec h (by omega) w6
  have hlow : ∀ r, r < 2 ^ h.levels → h.slotsMin ≤ h.leafVal r := by
    intro r hr
    exact rangeMin_le h.levels h.values (2 ^ h.levels) 0 r (Nat.zero_le _) (by omega)
  have hpf : BinaryHeap.pop_fast h =
      (if h.values.getD (BinaryHeap.selectMinIndex h.levels h.values) inf ≠ inf
       then (h.values.getD (BinaryHeap.selectMinIndex h.levels h.values) inf,
             h.references.getD
               (BinaryHeap.selectMinIndex h.levels h.values - (2 ^ h.levels - 1)) (-1),
             h.remove (BinaryHeap.selectMinIndex h.levels h.values))
       else (h.values.getD (BinaryHeap.selectMinIndex h.levels h.values) inf,
             h.references.getD
               (BinaryHeap.selectMinIndex h.levels h.values - (2 ^ h.levels - 1)) (-1),
             h)) := rfl
  rw [hs2] at hpf
  rw [show 2 ^ h.levels - 1 + h.rightmostMin - (2 ^ h.levels - 1) = h.rightmostMin
        from by omega] at hpf
  have hsv : h.values.getD (2 ^ h.levels - 1 + h.rightmostMin) inf = h.slotsMin := by
    rw [← hs2]; exact hs1
  rw [hsv] at hpf
  by_cases hv : h.slotsMin = inf
  · rw [if_neg (by rw [hv]; exact fun hx => hx rfl)] at hpf
    rw [hpf]
    exact ⟨rfl, rfl, ⟨w1, w2, w3, w4, w5, w6, w7⟩, rfl,
      fun s hs => hlow s hs, fun _ => rfl, fun hx => absurd hv hx⟩
  · have hrc : h.rightmostMin < h.count := by
      by_contra hcon
      exact hv (by rw [← hsv]; exact w7 h.rightmostMin hs3 (by omega))
    have hc1 : 1 ≤ h.count := by omega
    obtain ⟨b1, b2, b3, b4, b5⟩ :=
      remove_spec h h.rightmostMin ⟨w1, w2, w3, w4, w5, w6, w7⟩ hc1 hrc
    rw [if_pos hv] at hpf
    rw [hpf]
    refine ⟨rfl, rfl, b1, b3, ?_, fun hx => absurd hx hv, fun _ => ⟨b2, hrc, hc1⟩⟩
    intro s hs
    rcases Nat.lt_or_ge s (h.count - 1) with hlt | hge
    · rw [b4 s hlt]
      by_cases hsr : s = h.rightmostMin
      · rw [if_pos hsr]; exact hlow (h.count - 1) (by omega)
      · rw [if_neg hsr]; exact hlow s (by omega)
    · have hs' : s < 2 ^ (h.remove (2 ^ h.levels - 1 + h.rightmostMin)).levels := hs
      have hocc := b1.2.2.2.2.2.2 s hs' (by omega)
      show h.slotsMin ≤ (h.remove (2 ^ h.levels - 1 + h.rightmostMin)).leafVal s
      unfold BinaryHeap.leafVal
      rw [hocc]
      exact le_top

theorem pop_spec (h : BinaryHeap) (hWF : h.WF) :
    (h.count = 0 → BinaryHeap.pop h = .error (.indexError "pop from an empty heap")) ∧
    (∀ v ref h2, BinaryHeap.pop h = .ok (v, ref, h2) →
      v = h.slotsMin ∧ ref = h.refAt h.rightmostMin ∧ h2.WF ∧ h2.min_levels = h.min_levels ∧
      (∀ s, s < 2 ^ h2.levels → v ≤ h2.leafVal s)) := by
  constructor
  · intro hz
    unfold BinaryHeap.pop
    rw [if_pos hz]
  · intro v ref h2 hok
    by_cases hz : h.count = 0
    · rw [BinaryHeap.pop, if_pos hz] at hok
      exact absurd hok (by intro hx; cases hx)
    · rw [BinaryHeap.pop, if_neg hz] at hok
      obtain ⟨p1, p2, p3, p4, p5, p6, p7⟩ := pop_fast_spec h hWF
      have hinj : BinaryHeap.pop_fast h = (v, ref, h2) := Except.ok.inj hok
      have hv : v = (BinaryHeap.pop_fast h).1 := by rw [hinj]
      have hr : ref = (BinaryHeap.pop_fast h).2.1 := by rw [hinj]
      have hh : h2 = (BinaryHeap.pop_fast h).2.2 := by rw [hinj]
      subst hv hr hh
      exact ⟨p1, p2, p3, p4, fun s hs => p1 ▸ p5 s hs⟩

theorem min_val_eq_slotsMin (h : BinaryHeap) (hL : 1 ≤ h.levels)
    (hinv : inv1 h.levels h.values) :
    BinaryHeap.min_val h = h.slotsMin := by
  obtain ⟨L', hL'⟩ : ∃ L', h.levels = L' + 1 := ⟨h.levels - 1, by omega⟩
  have hb1 : 2 ^ h.levels = 2 ^ L' + 2 ^ L' := by rw [hL']; ring
  have hv1 : h.values.getD 1 inf = rangeMin h.levels h.values 0 (2 ^ L') := by
    have hx := node_eq_rangeMin h.levels h.values hinv L' 1 0 (by omega) le_rfl (by norm_num)
    rw [show 2 ^ 1 - 1 + 0 = 1 from by norm_num] at hx
    rw [hx, Nat.zero_mul]
  have hv2 : h.values.getD 2 inf = rangeMin h.levels h.values (2 ^ L') (2 ^ L') := by
    have hx := node_eq_rangeMin h.levels h.values hinv L' 1 1 (by omega) le_rfl (by norm_num)
    rw [show 2 ^ 1 - 1 + 1 = 2 from by norm_num] at hx
    rw [hx, Nat.one_mul]
  show (if h.values.getD 1 inf < h.values.getD 2 inf
        then h.values.getD 1 inf else h.values.getD 2 inf) = h.slotsMin
  rw [if_lt_eq_min, hv1, hv2]
  have hsp := rangeMin_split h.levels h.values (2 ^ L') 0 (2 ^ L')
  rw [Nat.zero_add] at hsp
  rw [← hsp, ← hb1]
  rfl

theorem slotsMin_of_empty (h : BinaryHeap) (hWF : h.WF) (hz : h.count = 0) :
    h.slotsMin = inf := by
  refine rangeMin_top h.levels h.values (2 ^ h.levels) 0 ?_
  intro r hr1 hr2
  exact hWF.2.2.2.2.2.2 r (by omega) (by omega)

/-! ### Operation sequences on the base heap -/

/-- One public operation of the Python-level interface. -/
inductive HeapOp : Type
  | push : VALUE_T → Int → HeapOp
  | pop : HeapOp

/-- Run one operation on a `BinaryHeap` (a failing `pop` leaves the state
unchanged, as the raised exception aborts before any mutation). -/
def stepB (h : BinaryHeap) : HeapOp → BinaryHeap
  | .push v r => BinaryHeap.push v r h
  | .pop =>
      match BinaryHeap.pop h with
      | .ok x => x.2.2
      | .error _ => h

/-- Run a sequence of operations. -/
def runB (h : BinaryHeap) (ops : List HeapOp) : BinaryHeap := ops.foldl stepB h

/-- States reachable from a freshly constructed heap (capacity at least 2) by
an arbitrary sequence of pushes and pops. -/
def reachB (h : BinaryHeap) : Prop :=
  ∃ cap ops, 2 ≤ cap ∧ runB (newBinaryHeap cap) ops = h

theorem stepB_WF (h : BinaryHeap) (op : HeapOp) (hWF : h.WF) : (stepB h op).WF := by
  cases op with
  | push v r =>
    obtain ⟨p2, h2, hpf⟩ : ∃ p2 h2, BinaryHeap.push_fast v r h = (p2, h2) := ⟨_, _, rfl⟩
    have := (push_fast_spec v r h hWF p2 h2 hpf).2.1
    show (BinaryHeap.push_fast v r h).2.WF
    rw [hpf]
    exact this
  | pop =>
    by_cases hz : h.count = 0
    · have hx : BinaryHeap.pop h = .error (.indexError "pop from an empty heap") :=
        (pop_spec h hWF).1 hz
      show (match BinaryHeap.pop h with | .ok x => x.2.2 | .error _ => h).WF
      rw [hx]
      exact hWF
    · have hx : BinaryHeap.pop h = .ok (BinaryHeap.pop_fast h) := by
        rw [BinaryHeap.pop, if_neg hz]
      show (match BinaryHeap.pop h with | .ok x => x.2.2 | .error _ => h).WF
      rw [hx]
      exact (pop_fast_spec h hWF).2.2.1

theorem runB_WF : ∀ (ops : List HeapOp) (h : BinaryHeap), h.WF → (runB h ops).WF := by
  intro ops
  induction ops with
  | nil => intro h hWF; exact hWF
  | cons op rest ih =>
    intro h hWF
    exact ih (stepB h op) (stepB_WF h op hWF)

theorem reachB_WF (h : BinaryHeap) (hreach : reachB h) : h.WF := by
  obtain ⟨cap, ops, hcap, hrun⟩ := hreach
  rw [← hrun]
  exact runB_WF ops (newBinaryHeap cap) (newBinaryHeap_WF cap hcap).1

/-- Two successive pops with nothing in between return non-decreasing
values. -/
theorem pops_monotone_base (h : BinaryHeap) (hWF : h.WF)
    (v1 v2 : VALUE_T) (r1 r2 : Int) (h1 h2 : BinaryHeap)
    (hp1 : BinaryHeap.pop h = .ok (v1, r1, h1))
    (hp2 : BinaryHeap.pop h1 = .ok (v2, r2, h2)) : v1 ≤ v2 := by
  obtain ⟨e1, e2, e3, e4, e5⟩ := (pop_spec h hWF).2 v1 r1 h1 hp1
  obtain ⟨f1, f2, f3, f4, f5⟩ := (pop_spec h1 e3).2 v2 r2 h2 hp2
  obtain ⟨r, hr1, hr2, hr3⟩ :=
    rangeMin_attained h1.levels h1.values (2 ^ h1.levels) 0 Nat.one_le_two_pow
  have hx := e5 r (by omega)
  unfold BinaryHeap.leafVal at hx
  rw [hr3] at hx
  rw [f1]
  exact hx

/-! ### Well-formedness of the indexed heap -/

/-- Invariant I4 (cross-reference consistency): every occupied leaf position
`p` stores an in-range id whose cross-reference entry points back at `p`, and
every non-sentinel cross-reference entry points at an occupied leaf that
stores exactly that id. -/
def FastUpdateBinaryHeap.I4 (x : FastUpdateBinaryHeap) : Prop :=
  (∀ p, p < x.base.count → 0 ≤ x.base.refAt p ∧ x.base.refAt p ≤ (x.max_reference : Int) ∧
    x.crossref.getD (x.base.refAt p).toNat (-1) = ((p : Int))) ∧
  (∀ k, k < x.max_reference + 1 →
    x.crossref.getD k (-1) = -1 ∨
    (0 ≤ x.crossref.getD k (-1) ∧ (x.crossref.getD k (-1)).toNat < x.base.count ∧
     x.base.refAt (x.crossref.getD k (-1)).toNat = ((k : Int))))

/-- Well-formedness of a `FastUpdateBinaryHeap` state. -/
def FastUpdateBinaryHeap.WFX (x : FastUpdateBinaryHeap) : Prop :=
  x.base.WF ∧ x.crossref.length = x.max_reference + 1 ∧ x.I4

theorem fuRemove_spec (x : FastUpdateBinaryHeap) (r1 : Nat) (hWFX : x.WFX)
    (hc : 1 ≤ x.base.count) (hr1 : r1 < x.base.count) :
    (x.fuRemove (2 ^ x.base.levels - 1 + r1)).WFX ∧
    (x.fuRemove (2 ^ x.base.levels - 1 + r1)).base
      = x.base.remove (2 ^ x.base.levels - 1 + r1) ∧
    (x.fuRemove (2 ^ x.base.levels - 1 + r1)).max_reference = x.max_reference := by
  obtain ⟨hWF, hlen, hA, hB⟩ := hWFX
  obtain ⟨c1, c2, c3, c4, c5⟩ := remove_spec x.base r1 hWF hc hr1
  obtain ⟨d1a, d1b, d1c⟩ := hA r1 hr1
  obtain ⟨d2a, d2b, d2c⟩ := hA (x.base.count - 1) (by omega)
  have hfr : x.fuRemove (2 ^ x.base.levels - 1 + r1) =
      { x with
        base := x.base.remove (2 ^ x.base.levels - 1 + r1),
        crossref := setIdx
          (setIdx x.crossref
            (x.base.references.getD (x.base.count - 1) (-1))
            (((2 ^ x.base.levels - 1 + r1 - (2 ^ x.base.levels - 1) : Nat) : Int)))
          (x.base.references.getD
            (2 ^ x.base.levels - 1 + r1 - (2 ^ x.base.levels - 1)) (-1)) (-1) } := rfl
  rw [show 2 ^ x.base.levels - 1 + r1 - (2 ^ x.base.levels - 1) = r1 from by omega] at hfr
  have hd1 : x.base.references.getD r1 (-1) = x.base.refAt r1 := rfl
  have hd2 : x.base.references.getD (x.base.count - 1) (-1)
      = x.base.refAt (x.base.count - 1) := rfl
  have hsx : setIdx x.crossref (x.base.references.getD (x.base.count - 1) (-1))
      (((r1 : Int))) = x.crossref.set (x.base.refAt (x.base.count - 1)).toNat (((r1 : Int))) := by
    unfold setIdx
    rw [hd2, if_pos d2a]
  have hcr : (x.fuRemove (2 ^ x.base.levels - 1 + r1)).crossref =
      (x.crossref.set (x.base.refAt (x.base.count - 1)).toNat (((r1 : Int)))).set
        (x.base.refAt r1).toNat (-1) := by
    rw [hfr]
    show setIdx _ _ _ = _
    rw [hsx]
    unfold setIdx
    rw [hd1, if_pos d1a]
  have hbase : (x.fuRemove (2 ^ x.base.levels - 1 + r1)).base
      = x.base.remove (2 ^ x.base.levels - 1 + r1) := by rw [hfr]
  have hmr : (x.fuRemove (2 ^ x.base.levels - 1 + r1)).max_reference = x.max_reference := by
    rw [hfr]
  have hlencr : (x.fuRemove (2 ^ x.base.levels - 1 + r1)).crossref.length
      = x.max_reference + 1 := by
    rw [hcr, List.length_set, List.length_set, hlen]
  have hgcr : ∀ k, (x.fuRemove (2 ^ x.base.levels - 1 + r1)).crossref.getD k (-1) =
      (if k = (x.base.refAt r1).toNat then -1
       else if k = (x.base.refAt (x.base.count - 1)).toNat then ((r1 : Int))
       else x.crossref.getD k (-1)) := by
    intro k
    rw [hcr]
    rcases eq_or_ne k (x.base.refAt r1).toNat with rfl | hk1
    · rw [if_pos rfl, getD_set_eq _ _ _ _ (by rw [List.length_set, hlen]; omega)]
    · rw [if_neg hk1, getD_set_ne _ _ _ (Ne.symm hk1)]
      rcases eq_or_ne k (x.base.refAt (x.base.count - 1)).toNat with rfl | hk2
      · rw [if_pos rfl, getD_set_eq _ _ _ _ (by rw [hlen]; omega)]
      · rw [if_neg hk2, getD_set_ne _ _ _ (Ne.symm hk2)]
  refine ⟨⟨by rw [hbase]; exact c1, hlencr, ?_, ?_⟩, hbase, hmr⟩
  · -- forward direction of I4
    intro p hp
    rw [hbase, c2] at hp
    have hra : (x.base.remove (2 ^ x.base.levels - 1 + r1)).refAt p
        = if p = r1 then x.base.refAt (x.base.count - 1) else x.base.refAt p := c5 p hp
    rw [hbase, hra, hmr, hgcr]
    by_cases hpe : p = r1
    · rw [if_pos hpe]
      have hne12 : (x.base.refAt (x.base.count - 1)).toNat ≠ (x.base.refAt r1).toNat := by
        intro hx
        rw [hx, d1c] at d2c
        omega
      rw [if_neg hne12, if_pos rfl]
      exact ⟨d2a, d2b, by rw [hpe]⟩
    · rw [if_neg hpe]
      obtain ⟨e1, e2, e3⟩ := hA p (by omega)
      have hn1 : (x.base.refAt p).toNat ≠ (x.base.refAt r1).toNat := by
        intro hx
        rw [hx, d1c] at e3
        omega
      have hn2 : (x.base.refAt p).toNat ≠ (x.base.refAt (x.base.count - 1)).toNat := by
        intro hx
        rw [hx, d2c] at e3
        omega
      rw [if_neg hn1, if_neg hn2]
      exact ⟨e1, e2, e3⟩
  · -- backward direction of I4
    intro k hk
    rw [hmr] at hk
    rw [hbase, c2, hgcr]
    rcases eq_or_ne k (x.base.refAt r1).toNat with rfl | hk1
    · rw [if_pos rfl]
      exact Or.inl rfl
    · rw [if_neg hk1]
      rcases eq_or_ne k (x.base.refAt (x.base.count - 1)).toNat with rfl | hk2
      · rw [if_pos rfl]
        right
        have hno : r1 ≠ x.base.count - 1 := by
          intro hx
          exact hk1 (by rw [hx])
        have hrlt : r1 < x.base.count - 1 := by omega
        refine ⟨by omega, by omega, ?_⟩
        rw [show (((r1 : Int))).toNat = r1 from by omega, c5 r1 hrlt, if_pos rfl]
        omega
      · rw [if_neg hk2]
        rcases hB k hk with hleft | ⟨f1, f2, f3⟩
        · exact Or.inl hleft
        · right
          have hp1 : (x.crossref.getD k (-1)).toNat ≠ r1 := by
            intro hx
            rw [hx] at f3
            exact hk1 (by omega)
          have hp2 : (x.crossref.getD k (-1)).toNat ≠ x.base.count - 1 := by
            intro hx
            rw [hx] at f3
            exact hk2 (by omega)
          refine ⟨f1, by omega, ?_⟩
          rw [c5 _ (by omega), if_neg hp1]
          exact f3

/-- The dispatched `pop_fast` of the indexed heap: same returned pair as the
base heap, well-formedness preserved, extracted value is the leaf minimum. -/
theorem fuPop_fast_spec (x : FastUpdateBinaryHeap) (hWFX : x.WFX) :
    (FastUpdateBinaryHeap.pop_fast x).1 = x.base.slotsMin ∧
    (FastUpdateBinaryHeap.pop_fast x).2.1 = x.base.refAt x.base.rightmostMin ∧
    (FastUpdateBinaryHeap.pop_fast x).2.2.WFX ∧
    (FastUpdateBinaryHeap.pop_fast x).2.2.max_reference = x.max_reference ∧
    (∀ s, s < 2 ^ (FastUpdateBinaryHeap.pop_fast x).2.2.base.levels →
      x.base.slotsMin ≤ (FastUpdateBinaryHeap.pop_fast x).2.2.base.leafVal s) ∧
    (x.base.slotsMin = inf → (FastUpdateBinaryHeap.pop_fast x).2.2 = x) ∧
    (x.base.slotsMin ≠ inf →
      (FastUpdateBinaryHeap.pop_fast x).2.2.base.count = x.base.count - 1 ∧
      x.base.rightmostMin < x.base.count ∧ 1 ≤ x.base.count) := by
  have hWF := hWFX.1
  obtain ⟨w1, w2, w3, w4, w5, w6, w7⟩ := hWF
  obtain ⟨hs1, hs2, hs3⟩ := selectMinIndex_spec x.base (by omega) w6
  have hlow : ∀ r, r < 2 ^ x.base.levels → x.base.slotsMin ≤ x.base.leafVal r := by
    intro r hr
    exact rangeMin_le x.base.levels x.base.values (2 ^ x.base.levels) 0 r (Nat.zero_le _)
      (by omega)
  have hpf : FastUpdateBinaryHeap.pop_fast x =
      (if x.base.values.getD (BinaryHeap.selectMinIndex x.base.levels x.base.values) inf ≠ inf
       then (x.base.values.getD (BinaryHeap.selectMinIndex x.base.levels x.base.values) inf,
             x.base.references.getD
               (BinaryHeap.selectMinIndex x.base.levels x.base.values
                 - (2 ^ x.base.levels - 1)) (-1),
             x.fuRemove (BinaryHeap.selectMinIndex x.base.levels x.base.values))
       else (x.base.values.getD (BinaryHeap.selectMinIndex x.base.levels x.base.values) inf,
             x.base.references.getD
               (BinaryHeap.selectMinIndex x.base.levels x.base.values
                 - (2 ^ x.base.levels - 1)) (-1),
             x)) := rfl
  rw [hs2] at hs1
  rw [hs2, show 2 ^ x.base.levels - 1 + x.base.rightmostMin - (2 ^ x.base.levels - 1)
      = x.base.rightmostMin from by omega, hs1] at hpf
  by_cases hvi : x.base.slotsMin = inf
  · have hpf2 : FastUpdateBinaryHeap.pop_fast x =
        (x.base.slotsMin, x.base.references.getD x.base.rightmostMin (-1), x) := by
      rw [hpf, if_neg (fun hx => hx hvi)]
    refine ⟨by rw [hpf2], by rw [hpf2]; rfl, by rw [hpf2]; exact hWFX, by rw [hpf2], ?_, ?_, ?_⟩
    · intro s hs
      rw [hpf2] at hs ⊢
      exact hlow s hs
    · intro _
      rw [hpf2]
    · intro hne
      exact absurd hvi hne
  · have hrmlt : x.base.rightmostMin < x.base.count := by
      by_contra hge
      have hx := w7 x.base.rightmostMin hs3 (by omega)
      rw [hs1] at hx
      exact hvi hx
    have hc1 : 1 ≤ x.base.count := by omega
    obtain ⟨u1, u2, u3⟩ := fuRemove_spec x x.base.rightmostMin hWFX hc1 hrmlt
    obtain ⟨c1, c2, c3, c4, c5⟩ := remove_spec x.base x.base.rightmostMin
      ⟨w1, w2, w3, w4, w5, w6, w7⟩ hc1 hrmlt
    have hpf2 : FastUpdateBinaryHeap.pop_fast x =
        (x.base.slotsMin, x.base.references.getD x.base.rightmostMin (-1),
         x.fuRemove (2 ^ x.base.levels - 1 + x.base.rightmostMin)) := by
      rw [hpf, if_pos hvi]
    refine ⟨by rw [hpf2], by rw [hpf2]; rfl, by rw [hpf2]; exact u1, by rw [hpf2]; exact u3,
      ?_, ?_, ?_⟩
    · intro s hs
      rw [hpf2, u2] at hs ⊢
      by_cases hsc : s < x.base.count - 1
      · rw [c4 s hsc]
        by_cases hsr : s = x.base.rightmostMin
        · rw [if_pos hsr]
          exact hlow (x.base.count - 1) (by omega)
        · rw [if_neg hsr]
          exact hlow s (by omega)
      · have hocc := c1.2.2.2.2.2.2 s hs (by omega)
        unfold BinaryHeap.leafVal
        rw [hocc]
        exact le_top
    · intro hx
      exact absurd hx hvi
    · intro _
      refine ⟨?_, hrmlt, hc1⟩
      rw [hpf2, u2, c2]

/-- The `pop` wrapper of the indexed heap: error exactly on the empty heap,
and otherwise the popped value is the leaf minimum and a lower bound on the
remaining leaves, with well-formedness preserved. -/
theorem fuPop_spec (x : FastUpdateBinaryHeap) (hWFX : x.WFX) :
    (x.base.count = 0 →
      FastUpdateBinaryHeap.pop x = .error (.indexError "pop from an empty heap")) ∧
    (∀ v ref x2, FastUpdateBinaryHeap.pop x = .ok (v, ref, x2) →
      v = x.base.slotsMin ∧ ref = x.base.refAt x.base.rightmostMin ∧ x2.WFX ∧
      x2.max_reference = x.max_reference ∧
      (∀ s, s < 2 ^ x2.base.levels → v ≤ x2.base.leafVal s)) := by
  constructor
  · intro hz
    unfold FastUpdateBinaryHeap.pop
    rw [if_pos hz]
  · intro v ref x2 hok
    by_cases hz : x.base.count = 0
    · rw [FastUpdateBinaryHeap.pop, if_pos hz] at hok
      exact absurd hok (by intro hx; cases hx)
    · rw [FastUpdateBinaryHeap.pop, if_neg hz] at hok
      obtain ⟨p1, p2, p3, p4, p5, p6, p7⟩ := fuPop_fast_spec x hWFX
      have hinj : FastUpdateBinaryHeap.pop_fast x = (v, ref, x2) := Except.ok.inj hok
      have hv : v = (FastUpdateBinaryHeap.pop_fast x).1 := by rw [hinj]
      have hr : ref = (FastUpdateBinaryHeap.pop_fast x).2.1 := by rw [hinj]
      have hh : x2 = (FastUpdateBinaryHeap.pop_fast x).2.2 := by rw [hinj]
      subst hv hr hh
      exact ⟨p1, p2, p3, p4, fun s hs => p1 ▸ p5 s hs⟩

/-- `FastUpdateBinaryHeap.push_fast`: out-of-range references are rejected
without mutation; a present reference gets an in-place overwrite with path
repair (`count`, references and cross-references untouched); an absent
reference is appended and recorded in the cross-reference table.
Well-formedness is preserved in all three cases. -/
theorem fuPush_fast_spec (v : VALUE_T) (ref : Int) (x : FastUpdateBinaryHeap)
    (hWFX : x.WFX) :
    (¬ (0 ≤ ref ∧ ref ≤ (x.max_reference : Int)) →
      FastUpdateBinaryHeap.push_fast v ref x = (-1, x)) ∧
    (0 ≤ ref → ref ≤ (x.max_reference : Int) → x.crossref.getD ref.toNat (-1) ≠ -1 →
      ∀ q x2, FastUpdateBinaryHeap.push_fast v ref x = (q, x2) →
        q = x.crossref.getD ref.toNat (-1) ∧ x2.WFX ∧
        x2.base.count = x.base.count ∧ x2.base.levels = x.base.levels ∧
        x2.base.min_levels = x.base.min_levels ∧
        x2.base.references = x.base.references ∧ x2.crossref = x.crossref ∧
        x2.max_reference = x.max_reference ∧
        q.toNat < x.base.count ∧
        x2.base.leafVal q.toNat = v ∧
        (∀ s, s < 2 ^ x.base.levels → s ≠ q.toNat →
          x2.base.leafVal s = x.base.leafVal s)) ∧
    (0 ≤ ref → ref ≤ (x.max_reference : Int) → x.crossref.getD ref.toNat (-1) = -1 →
      ∀ q x2, FastUpdateBinaryHeap.push_fast v ref x = (q, x2) →
        q = ((x.base.count : Int)) ∧ x2.WFX ∧
        x2.base.count = x.base.count + 1 ∧
        x2.max_reference = x.max_reference ∧
        x2.base.min_levels = x.base.min_levels ∧
        x2.crossref.getD ref.toNat (-1) = ((x.base.count : Int)) ∧
        x2.base.leafVal x.base.count = v ∧
        (∀ s, s < x.base.count → x2.base.leafVal s = x.base.leafVal s) ∧
        (∀ k, k ≠ ref.toNat → x2.crossref.getD k (-1) = x.crossref.getD k (-1))) := by
  have hWF := hWFX.1
  have hlen := hWFX.2.1
  have hA := hWFX.2.2.1
  have hB := hWFX.2.2.2
  obtain ⟨w1, w2, w3, w4, w5, w6, w7⟩ := hWF
  have hpw : 2 ^ (x.base.levels + 1) = 2 * 2 ^ x.base.levels := two_pow_succ _
  have hstep : FastUpdateBinaryHeap.push_fast v ref x =
      (if ¬ (0 ≤ ref ∧ ref ≤ (x.max_reference : Int)) then (-1, x)
       else if x.crossref.getD ref.toNat (-1) ≠ -1 then
         (x.crossref.getD ref.toNat (-1),
          { x with base := { x.base with values := (update_one x.base.levels
              (x.base.values.set
                ((2 ^ x.base.levels - 1) + (x.crossref.getD ref.toNat (-1)).toNat) v)
              ((2 ^ x.base.levels - 1) + (x.crossref.getD ref.toNat (-1)).toNat)) } })
       else
         ((((BinaryHeap.push_fast v ref x.base).1 : Int)),
          { x with base := (BinaryHeap.push_fast v ref x.base).2,
                   crossref := setIdx x.crossref ref
                     (((BinaryHeap.push_fast v ref x.base).1 : Int)) })) := rfl
  refine ⟨?_, ?_, ?_⟩
  · intro hrange
    rw [hstep, if_pos hrange]
  · -- present reference: in-place overwrite
    intro h0 h1 hne q x2 heq
    rcases hB ref.toNat (by omega) with hm1 | ⟨g1, g2, g3⟩
    · exact absurd hm1 hne
    rw [hstep, if_neg (not_not_intro ⟨h0, h1⟩), if_pos hne] at heq
    have hq : q = x.crossref.getD ref.toNat (-1) := by
      have := congrArg Prod.fst heq
      exact this.symm
    have hx2 : x2 = { x with base := { x.base with values := (update_one x.base.levels
        (x.base.values.set
          ((2 ^ x.base.levels - 1) + (x.crossref.getD ref.toNat (-1)).toNat) v)
        ((2 ^ x.base.levels - 1) + (x.crossref.getD ref.toNat (-1)).toNat)) } } := by
      have := congrArg Prod.snd heq
      exact this.symm
    have hvals : x2.base.values = update_one x.base.levels
        (x.base.values.set
          ((2 ^ x.base.levels - 1) + (x.crossref.getD ref.toNat (-1)).toNat) v)
        ((2 ^ x.base.levels - 1) + (x.crossref.getD ref.toNat (-1)).toNat) := by
      rw [hx2]
    have hcnt : x2.base.count = x.base.count := by rw [hx2]
    have hlev : x2.base.levels = x.base.levels := by rw [hx2]
    have hml : x2.base.min_levels = x.base.min_levels := by rw [hx2]
    have hrefs : x2.base.references = x.base.references := by rw [hx2]
    have hcross : x2.crossref = x.crossref := by rw [hx2]
    have hmaxr : x2.max_reference = x.max_reference := by rw [hx2]
    have hi2 : (2 ^ x.base.levels - 1) + (x.crossref.getD ref.toNat (-1)).toNat
        ≤ 2 ^ (x.base.levels + 1) - 2 := by omega
    obtain ⟨ho1, ho2, ho3, ho4⟩ := oddify_mem x.base.levels
      ((2 ^ x.base.levels - 1) + (x.crossref.getD ref.toNat (-1)).toNat)
      (by omega) (by omega) hi2
    have hinv2 : inv1 x.base.levels x2.base.values := by
      rw [hvals]
      refine update_one_inv x.base.levels x.base.values
        (x.base.values.set
          ((2 ^ x.base.levels - 1) + (x.crossref.getD ref.toNat (-1)).toNat) v)
        (oddify ((2 ^ x.base.levels - 1) + (x.crossref.getD ref.toNat (-1)).toNat))
        ((2 ^ x.base.levels - 1) + (x.crossref.getD ref.toNat (-1)).toNat)
        (by omega) (by rw [List.length_set]; exact w3) w6 ho1 ho2 ho3 ?_ rfl
      intro j hj1 hj2
      exact getD_set_ne _ _ _ (by omega)
    have hleaf : ∀ s, s < 2 ^ x.base.levels →
        s ≠ (x.crossref.getD ref.toNat (-1)).toNat →
        x2.base.leafVal s = x.base.leafVal s := by
      intro s hs hsne
      unfold BinaryHeap.leafVal
      rw [hvals, hlev,
        update_one_leaf_frame x.base.levels _ _ _ _ (by omega) hi2 (by omega),
        getD_set_ne _ _ _ (by omega)]
    have hleafq : x2.base.leafVal (x.crossref.getD ref.toNat (-1)).toNat = v := by
      unfold BinaryHeap.leafVal
      rw [hvals, hlev,
        update_one_leaf_frame x.base.levels _ _ _ _ (by omega) hi2 (by omega)]
      exact getD_set_eq x.base.values _ v inf (by omega)
    have hWF2 : x2.base.WF := by
      refine ⟨by rw [hml]; exact w1, by rw [hml, hlev]; exact w2, ?_, ?_,
        by rw [hcnt, hlev]; exact w5, by rw [hlev]; exact hinv2, ?_⟩
      · rw [hlev, hvals, update_one_length, List.length_set]
        exact w3
      · rw [hlev, hrefs]
        exact w4
      · intro r hr hcr
        rw [hlev] at hr ⊢
        rw [hcnt] at hcr
        have := hleaf r hr (by omega)
        unfold BinaryHeap.leafVal at this
        rw [hlev] at this
        rw [this]
        exact w7 r hr hcr
    have hra : ∀ t, x2.base.refAt t = x.base.refAt t := by
      intro t
      unfold BinaryHeap.refAt
      rw [hrefs]
    have hI4 : x2.I4 := by
      constructor
      · intro p hp
        rw [hcnt] at hp
        rw [hra, hcross, hmaxr]
        exact hA p hp
      · intro k hk
        rw [hmaxr] at hk
        rw [hcross, hra, hcnt]
        exact hB k hk
    refine ⟨hq, ⟨hWF2, by rw [hcross, hmaxr]; exact hlen, hI4⟩, hcnt, hlev, hml, hrefs,
      hcross, hmaxr, by rw [hq]; exact g2, by rw [hq]; exact hleafq, ?_⟩
    intro s hs hsq
    rw [hq] at hsq
    exact hleaf s hs hsq
  · -- absent reference: base append plus cross-reference record
    intro h0 h1 hm1 q x2 heq
    rw [hstep, if_neg (not_not_intro ⟨h0, h1⟩), if_neg (not_not_intro hm1)] at heq
    obtain ⟨p1, p2, p3, p4, p5, p6, p7, p8, p9⟩ :=
      push_fast_spec v ref x.base ⟨w1, w2, w3, w4, w5, w6, w7⟩
        (BinaryHeap.push_fast v ref x.base).1 (BinaryHeap.push_fast v ref x.base).2 rfl
    have hq : q = (((BinaryHeap.push_fast v ref x.base).1 : Int)) := by
      have := congrArg Prod.fst heq
      exact this.symm
    have hx2 : x2 = { x with base := (BinaryHeap.push_fast v ref x.base).2,
                             crossref := (setIdx x.crossref ref
                               (((BinaryHeap.push_fast v ref x.base).1 : Int))) } := by
      have := congrArg Prod.snd heq
      exact this.symm
    have hbase2 : x2.base = (BinaryHeap.push_fast v ref x.base).2 := by rw [hx2]
    have hmaxr : x2.max_reference = x.max_reference := by rw [hx2]
    have hcross : x2.crossref = x.crossref.set ref.toNat
        (((BinaryHeap.push_fast v ref x.base).1 : Int)) := by
      rw [hx2]
      show setIdx _ _ _ = _
      unfold setIdx
      rw [if_pos h0]
    have hq2 : q = ((x.base.count : Int)) := by rw [hq, p1]
    have hcrv : ∀ k, x2.crossref.getD k (-1) =
        if k = ref.toNat then ((x.base.count : Int)) else x.crossref.getD k (-1) := by
      intro k
      rw [hcross, p1]
      rcases eq_or_ne k ref.toNat with rfl | hk
      · rw [if_pos rfl, getD_set_eq _ _ _ _ (by omega)]
      · rw [if_neg hk, getD_set_ne _ _ _ (Ne.symm hk)]
    have hI4 : x2.I4 := by
      constructor
      · intro p hp
        rw [hbase2, p3] at hp
        show 0 ≤ x2.base.refAt p ∧ x2.base.refAt p ≤ ((x2.max_reference : Int)) ∧ _
        rcases Nat.lt_or_ge p x.base.count with hplt | hpge
        · obtain ⟨e1, e2, e3⟩ := hA p hplt
          have hrp : x2.base.refAt p = x.base.refAt p := by rw [hbase2]; exact p8 p hplt
          have hne : (x.base.refAt p).toNat ≠ ref.toNat := by
            intro hx
            rw [hx, hm1] at e3
            omega
          rw [hrp, hmaxr, hcrv]
          exact ⟨e1, e2, by rw [if_neg hne]; exact e3⟩
        · have hpc : p = x.base.count := by omega
          have hrp : x2.base.refAt p = ref := by rw [hbase2, hpc]; exact p9
          rw [hrp, hmaxr, hcrv, if_pos (by rfl), hpc]
          exact ⟨h0, h1, rfl⟩
      · intro k hk
        rw [hmaxr] at hk
        rw [hcrv]
        rcases eq_or_ne k ref.toNat with rfl | hk1
        · rw [if_pos rfl]
          right
          refine ⟨by omega, ?_, ?_⟩
          · rw [hbase2, p3]
            omega
          · rw [show (((x.base.count : Nat) : Int)).toNat = x.base.count from by omega,
              hbase2]
            show (BinaryHeap.push_fast v ref x.base).2.refAt x.base.count = _
            rw [p9]
            omega
        · rw [if_neg hk1]
          rcases hB k hk with hleft | ⟨g1, g2, g3⟩
          · exact Or.inl hleft
          · right
            refine ⟨g1, by rw [hbase2, p3]; omega, ?_⟩
            have : x2.base.refAt (x.crossref.getD k (-1)).toNat
                = x.base.refAt (x.crossref.getD k (-1)).toNat := by
              rw [hbase2]
              exact p8 _ g2
            rw [this]
            exact g3
    refine ⟨hq2, ⟨by rw [hbase2]; exact p2, ?_, hI4⟩, by rw [hbase2, p3], hmaxr,
      by rw [hbase2, p4], by rw [hcrv, if_pos (by rfl)], by rw [hbase2]; exact p7,
      ?_, ?_⟩
    · rw [hcross, List.length_set, hlen, hmaxr]
    · intro s hs
      rw [hbase2]
      exact p6 s hs
    · intro k hkne
      rw [hcrv, if_neg hkne]

/-- `push_if_lower`: out-of-range references raise `ValueError`; a present
reference is overwritten (same state as `push_fast`) exactly when the new
value is strictly lower, otherwise the state is untouched and `False` is
reported; an absent reference is always inserted, as by `push_fast`. -/
theorem push_if_lower_spec (v : VALUE_T) (ref : Int) (x : FastUpdateBinaryHeap) :
    (¬ (0 ≤ ref ∧ ref ≤ (x.max_reference : Int)) →
      FastUpdateBinaryHeap.push_if_lower v ref x =
        .error (.valueError "reference outside of range [0, max_reference]")) ∧
    (0 ≤ ref → ref ≤ (x.max_reference : Int) →
      x.crossref.getD ref.toNat (-1) ≠ -1 →
      (v < x.base.leafVal (x.crossref.getD ref.toNat (-1)).toNat →
        FastUpdateBinaryHeap.push_if_lower v ref x =
          .ok (true, (FastUpdateBinaryHeap.push_fast v ref x).2)) ∧
      (¬ v < x.base.leafVal (x.crossref.getD ref.toNat (-1)).toNat →
        FastUpdateBinaryHeap.push_if_lower v ref x = .ok (false, x))) ∧
    (0 ≤ ref → ref ≤ (x.max_reference : Int) →
      x.crossref.getD ref.toNat (-1) = -1 →
      FastUpdateBinaryHeap.push_if_lower v ref x =
        .ok (true, (FastUpdateBinaryHeap.push_fast v ref x).2)) := by
  have hpil : FastUpdateBinaryHeap.push_if_lower v ref x =
      (if ¬ (0 ≤ ref ∧ ref ≤ (x.max_reference : Int)) then
        .error (.valueError "reference outside of range [0, max_reference]")
       else if x.crossref.getD ref.toNat (-1) ≠ -1 then
         (if v < x.base.values.getD
              ((2 ^ x.base.levels - 1) + (x.crossref.getD ref.toNat (-1)).toNat) inf then
           .ok (true, { x with base := { x.base with values := (update_one x.base.levels
              (x.base.values.set
                ((2 ^ x.base.levels - 1) + (x.crossref.getD ref.toNat (-1)).toNat) v)
              ((2 ^ x.base.levels - 1) + (x.crossref.getD ref.toNat (-1)).toNat)) } })
          else .ok (false, x))
       else
         .ok (true, { x with base := (BinaryHeap.push_fast v ref x.base).2,
                             crossref := (setIdx x.crossref ref
                               (((BinaryHeap.push_fast v ref x.base).1 : Int))) })) := rfl
  have hstep : FastUpdateBinaryHeap.push_fast v ref x =
      (if ¬ (0 ≤ ref ∧ ref ≤ (x.max_reference : Int)) then (-1, x)
       else if x.crossref.getD ref.toNat (-1) ≠ -1 then
         (x.crossref.getD ref.toNat (-1),
          { x with base := { x.base with values := (update_one x.base.levels
              (x.base.values.set
                ((2 ^ x.base.levels - 1) + (x.crossref.getD ref.toNat (-1)).toNat) v)
              ((2 ^ x.base.levels - 1) + (x.crossref.getD ref.toNat (-1)).toNat)) } })
       else
         ((((BinaryHeap.push_fast v ref x.base).1 : Int)),
          { x with base := (BinaryHeap.push_fast v ref x.base).2,
                   crossref := setIdx x.crossref ref
                     (((BinaryHeap.push_fast v ref x.base).1 : Int)) })) := rfl
  refine ⟨?_, ?_, ?_⟩
  · intro hrange
    rw [hpil, if_pos hrange]
  · intro h0 h1 hne
    constructor
    · intro hlt
      rw [hpil, if_neg (not_not_intro ⟨h0, h1⟩), if_pos hne,
        if_pos (show v < x.base.values.getD
          ((2 ^ x.base.levels - 1) + (x.crossref.getD ref.toNat (-1)).toNat) inf from hlt),
        hstep, if_neg (not_not_intro ⟨h0, h1⟩), if_pos hne]
    · intro hge
      rw [hpil, if_neg (not_not_intro ⟨h0, h1⟩), if_pos hne,
        if_neg (show ¬ v < x.base.values.getD
          ((2 ^ x.base.levels - 1) + (x.crossref.getD ref.toNat (-1)).toNat) inf from hge)]
  · intro h0 h1 hm1
    rw [hpil, if_neg (not_not_intro ⟨h0, h1⟩), if_neg (not_not_intro hm1),
      hstep, if_neg (not_not_intro ⟨h0, h1⟩), if_neg (not_not_intro hm1)]

/-- `value_of` / `value_of_fast`: a reference outside the cross-reference
buffer is an out-of-bounds read (undefined behaviour); an in-range absent
reference raises `ValueError("invalid reference")`; an in-range present
reference returns the stored leaf value by direct indexing. -/
theorem value_of_spec (x : FastUpdateBinaryHeap) (ref : Int) :
    (¬ (0 ≤ ref ∧ ref.toNat < x.crossref.length) →
      FastUpdateBinaryHeap.value_of x ref = .undef ∧
      FastUpdateBinaryHeap.value_of_fast x ref = .undef) ∧
    (0 ≤ ref → ref.toNat < x.crossref.length →
      x.crossref.getD ref.toNat (-1) = -1 →
      FastUpdateBinaryHeap.value_of x ref = .exn (.valueError "invalid reference")) ∧
    (0 ≤ ref → ref.toNat < x.crossref.length →
      x.crossref.getD ref.toNat (-1) ≠ -1 →
      FastUpdateBinaryHeap.value_of x ref =
        .ok (x.base.values.getD ((2 ^ x.base.levels - 1)
          + (x.crossref.getD ref.toNat (-1)).toNat) inf)) := by
  refine ⟨?_, ?_, ?_⟩
  · intro hrange
    have hvf : FastUpdateBinaryHeap.value_of_fast x ref = .undef := by
      unfold FastUpdateBinaryHeap.value_of_fast
      rw [if_neg hrange]
    constructor
    · unfold FastUpdateBinaryHeap.value_of
      rw [hvf]
    · exact hvf
  · intro h0 h1 hm1
    have hvf : FastUpdateBinaryHeap.value_of_fast x ref = .ok (inf, true) := by
      unfold FastUpdateBinaryHeap.value_of_fast
      rw [if_pos ⟨h0, h1⟩, if_pos hm1]
    unfold FastUpdateBinaryHeap.value_of
    rw [hvf]
    rfl
  · intro h0 h1 hne
    have hvf : FastUpdateBinaryHeap.value_of_fast x ref =
        .ok (x.base.values.getD ((2 ^ x.base.levels - 1)
          + (x.crossref.getD ref.toNat (-1)).toNat) inf, false) := by
      unfold FastUpdateBinaryHeap.value_of_fast
      rw [if_pos ⟨h0, h1⟩, if_neg hne]
    unfold FastUpdateBinaryHeap.value_of
    rw [hvf]
    rfl

/-- The `FastUpdateBinaryHeap` constructor produces a well-formed empty
state. -/
theorem mkNew_WFX (cap maxref : Nat) (hcap : 2 ≤ cap) :
    (FastUpdateBinaryHeap.mkNew cap maxref).WFX ∧
    (FastUpdateBinaryHeap.mkNew cap maxref).base.count = 0 ∧
    (∀ k, (FastUpdateBinaryHeap.mkNew cap maxref).crossref.getD k (-1) = -1) := by
  obtain ⟨hWF, hc0⟩ := newBinaryHeap_WF cap hcap
  have hbase : (FastUpdateBinaryHeap.mkNew cap maxref).base = newBinaryHeap cap := rfl
  have hcr : (FastUpdateBinaryHeap.mkNew cap maxref).crossref
      = List.replicate (maxref + 1) (-1) := rfl
  have hall : ∀ k, (FastUpdateBinaryHeap.mkNew cap maxref).crossref.getD k (-1) = -1 := by
    intro k
    rw [hcr]
    exact getD_replicate_self _ _ _
  refine ⟨⟨by rw [hbase]; exact hWF, by rw [hcr, List.length_replicate]; rfl, ?_, ?_⟩,
    by rw [hbase]; exact hc0, hall⟩
  · intro p hp
    rw [hbase, hc0] at hp
    omega
  · intro k _
    exact Or.inl (hall k)

/-- The `push` wrapper of the indexed heap: `ValueError` exactly for an
out-of-range reference, otherwise the state of `push_fast`. -/
theorem fuPush_spec (v : VALUE_T) (ref : Int) (x : FastUpdateBinaryHeap)
    (hWFX : x.WFX) :
    (¬ (0 ≤ ref ∧ ref ≤ (x.max_reference : Int)) →
      FastUpdateBinaryHeap.push v ref x =
        .error (.valueError "reference outside of range [0, max_reference]")) ∧
    (0 ≤ ref → ref ≤ (x.max_reference : Int) →
      FastUpdateBinaryHeap.push v ref x =
        .ok (FastUpdateBinaryHeap.push_fast v ref x).2) := by
  have hp : FastUpdateBinaryHeap.push v ref x =
      (if (FastUpdateBinaryHeap.push_fast v ref x).1 = -1 then
        .error (.valueError "reference outside of range [0, max_reference]")
       else .ok (FastUpdateBinaryHeap.push_fast v ref x).2) := rfl
  obtain ⟨sp1, sp2, sp3⟩ := fuPush_fast_spec v ref x hWFX
  constructor
  · intro hrange
    rw [hp, sp1 hrange]
    rfl
  · intro h0 h1
    by_cases hm : x.crossref.getD ref.toNat (-1) = -1
    · obtain ⟨hq, _⟩ := sp3 h0 h1 hm (FastUpdateBinaryHeap.push_fast v ref x).1
        (FastUpdateBinaryHeap.push_fast v ref x).2 rfl
      rw [hp, hq, if_neg (by omega)]
    · obtain ⟨hq, _⟩ := sp2 h0 h1 hm (FastUpdateBinaryHeap.push_fast v ref x).1
        (FastUpdateBinaryHeap.push_fast v ref x).2 rfl
      rw [hp, hq, if_neg hm]

/-! ### Operation sequences on the indexed heap -/

/-- Run one public operation on a `FastUpdateBinaryHeap` (a raised exception
aborts before any mutation, leaving the state unchanged). -/
def stepX (x : FastUpdateBinaryHeap) : HeapOp → FastUpdateBinaryHeap
  | .push v r =>
      match FastUpdateBinaryHeap.push v r x with
      | .ok x2 => x2
      | .error _ => x
  | .pop =>
      match FastUpdateBinaryHeap.pop x with
      | .ok y => y.2.2
      | .error _ => x

/-- Run a sequence of operations on a `FastUpdateBinaryHeap`. -/
def runX (x : FastUpdateBinaryHeap) (ops : List HeapOp) : FastUpdateBinaryHeap :=
  ops.foldl stepX x

/-- Indexed-heap states reachable from a freshly constructed heap by pushes
and pops. -/
def reachX (x : FastUpdateBinaryHeap) : Prop :=
  ∃ cap maxref ops, 2 ≤ cap ∧ runX (FastUpdateBinaryHeap.mkNew cap maxref) ops = x

theorem stepX_WFX (x : FastUpdateBinaryHeap) (op : HeapOp) (hWFX : x.WFX) :
    (stepX x op).WFX := by
  cases op with
  | push v r =>
    obtain ⟨sp1, sp2, sp3⟩ := fuPush_fast_spec v r x hWFX
    show (match FastUpdateBinaryHeap.push v r x with
          | .ok x2 => x2 | .error _ => x).WFX
    by_cases hrange : 0 ≤ r ∧ r ≤ (x.max_reference : Int)
    · rw [(fuPush_spec v r x hWFX).2 hrange.1 hrange.2]
      by_cases hm : x.crossref.getD r.toNat (-1) = -1
      · exact (sp3 hrange.1 hrange.2 hm (FastUpdateBinaryHeap.push_fast v r x).1
          (FastUpdateBinaryHeap.push_fast v r x).2 rfl).2.1
      · exact (sp2 hrange.1 hrange.2 hm (FastUpdateBinaryHeap.push_fast v r x).1
          (FastUpdateBinaryHeap.push_fast v r x).2 rfl).2.1
    · rw [(fuPush_spec v r x hWFX).1 hrange]
      exact hWFX
  | pop =>
    show (match FastUpdateBinaryHeap.pop x with
          | .ok y => y.2.2 | .error _ => x).WFX
    by_cases hz : x.base.count = 0
    · rw [(fuPop_spec x hWFX).1 hz]
      exact hWFX
    · rw [show FastUpdateBinaryHeap.pop x = .ok (FastUpdateBinaryHeap.pop_fast x) from by
        rw [FastUpdateBinaryHeap.pop, if_neg hz]]
      exact (fuPop_fast_spec x hWFX).2.2.1

theorem runX_WFX : ∀ (ops : List HeapOp) (x : FastUpdateBinaryHeap), x.WFX →
    (runX x ops).WFX := by
  intro ops
  induction ops with
  | nil => intro x hWFX; exact hWFX
  | cons op rest ih =>
    intro x hWFX
    exact ih (stepX x op) (stepX_WFX x op hWFX)

theorem reachX_WFX (x : FastUpdateBinaryHeap) (hreach : reachX x) : x.WFX := by
  obtain ⟨cap, maxref, ops, hcap, hrun⟩ := hreach
  rw [← hrun]
  exact runX_WFX ops (FastUpdateBinaryHeap.mkNew cap maxref)
    (mkNew_WFX cap maxref hcap).1

/-- Two successive pops of the indexed heap return non-decreasing values. -/
theorem pops_monotone_fu (x : FastUpdateBinaryHeap) (hWFX : x.WFX)
    (v1 v2 : VALUE_T) (r1 r2 : Int) (x1 x2 : FastUpdateBinaryHeap)
    (hp1 : FastUpdateBinaryHeap.pop x = .ok (v1, r1, x1))
    (hp2 : FastUpdateBinaryHeap.pop x1 = .ok (v2, r2, x2)) : v1 ≤ v2 := by
  obtain ⟨e1, e2, e3, e4, e5⟩ := (fuPop_spec x hWFX).2 v1 r1 x1 hp1
  obtain ⟨f1, f2, f3, f4, f5⟩ := (fuPop_spec x1 e3).2 v2 r2 x2 hp2
  obtain ⟨r, hr1, hr2, hr3⟩ :=
    rangeMin_attained x1.base.levels x1.base.values (2 ^ x1.base.levels) 0 Nat.one_le_two_pow
  have hx := e5 r (by omega)
  unfold BinaryHeap.leafVal at hx
  rw [hr3] at hx
  rw [f1]
  exact hx

/-! ### Decidability of the invariants (for concrete evaluation) -/

instance (L : Nat) (vs : List VALUE_T) : Decidable (inv1 L vs) := by
  unfold inv1
  infer_instance

instance (h : BinaryHeap) : Decidable h.WF := by
  unfold BinaryHeap.WF
  infer_instance

instance (x : FastUpdateBinaryHeap) : Decidable x.I4 := by
  unfold FastUpdateBinaryHeap.I4
  infer_instance

instance (x : FastUpdateBinaryHeap) : Decidable x.WFX := by
  unfold FastUpdateBinaryHeap.WFX
  infer_instance

instance {E A : Type} [DecidableEq E] [DecidableEq A] : DecidableEq (Except E A)
  | .error e, .error f =>
      if h : e = f then .isTrue (by rw [h])
      else .isFalse (by intro hx; cases hx; exact h rfl)
  | .error _, .ok _ => .isFalse (by intro hx; cases hx)
  | .ok _, .error _ => .isFalse (by intro hx; cases hx)
  | .ok a, .ok b =>
      if h : a = b then .isTrue (by rw [h])
      else .isFalse (by intro hx; cases hx; exact h rfl)

/-! ### The claims -/

/-- Claim C1 (amended): on every *reachable* heap of either variant, two
*consecutive* successful pops return non-decreasing values.  The original
claim — that each pop dominates *every* earlier pop even with pushes
interleaved between them — is false: a later, smaller push is returned by a
later pop (see the counterexample). -/
theorem C1_consecutive_pops_monotone :
    (∀ (h : BinaryHeap) (v1 v2 : VALUE_T) (r1 r2 : Int) (h1 h2 : BinaryHeap),
      reachB h → BinaryHeap.pop h = .ok (v1, r1, h1) →
      BinaryHeap.pop h1 = .ok (v2, r2, h2) → v1 ≤ v2) ∧
    (∀ (x : FastUpdateBinaryHeap) (v1 v2 : VALUE_T) (r1 r2 : Int)
       (x1 x2 : FastUpdateBinaryHeap),
      reachX x → FastUpdateBinaryHeap.pop x = .ok (v1, r1, x1) →
      FastUpdateBinaryHeap.pop x1 = .ok (v2, r2, x2) → v1 ≤ v2) := by
  constructor
  · intro h v1 v2 r1 r2 h1 h2 hr hp1 hp2
    exact pops_monotone_base h (reachB_WF h hr) v1 v2 r1 r2 h1 h2 hp1 hp2
  · intro x v1 v2 r1 r2 x1 x2 hr hp1 hp2
    exact pops_monotone_fu x (reachX_WFX x hr) v1 v2 r1 r2 x1 x2 hp1 hp2

/-- Pushing 5, popping it, then pushing 3 makes the second pop return a value
strictly below the first pop's value: pop values are not globally
non-decreasing once pushes are interleaved. -/
theorem C1_counterexample :
    BinaryHeap.pop (runB (newBinaryHeap 4) [HeapOp.push (qv 5) 10]) =
      Except.ok (qv 5, 10, runB (newBinaryHeap 4) [HeapOp.push (qv 5) 10, HeapOp.pop]) ∧
    BinaryHeap.pop (runB (newBinaryHeap 4)
        [HeapOp.push (qv 5) 10, HeapOp.pop, HeapOp.push (qv 3) 11]) =
      Except.ok (qv 3, 11, runB (newBinaryHeap 4)
        [HeapOp.push (qv 5) 10, HeapOp.pop, HeapOp.push (qv 3) 11, HeapOp.pop]) ∧
    qv 3 < qv 5 := by
  decide

/-- Witness for C1 at a concrete two-element heap. -/
theorem C1_witness : qv 3 ≤ qv 7 :=
  C1_consecutive_pops_monotone.1
    (runB (newBinaryHeap 4) [HeapOp.push (qv 3) 0, HeapOp.push (qv 7) 1])
    (qv 3) (qv 7) 0 1
    (runB (newBinaryHeap 4) [HeapOp.push (qv 3) 0, HeapOp.push (qv 7) 1, HeapOp.pop])
    (runB (newBinaryHeap 4)
      [HeapOp.push (qv 3) 0, HeapOp.push (qv 7) 1, HeapOp.pop, HeapOp.pop])
    ⟨4, [HeapOp.push (qv 3) 0, HeapOp.push (qv 7) 1], by decide, rfl⟩
    (by decide) (by decide)

/-- Claim C2: for an in-range id that is present, `push_if_lower` overwrites
the stored value (and repairs the path, preserving well-formedness) if and
only if the new value is strictly lower, reporting `true` exactly when it
mutates; for an in-range absent id it always inserts (the state of
`push_fast`) and reports `true`. -/
theorem C2_push_if_lower (v : VALUE_T) (ref : Int) (x : FastUpdateBinaryHeap)
    (hWFX : x.WFX) (h0 : 0 ≤ ref) (h1 : ref ≤ (x.max_reference : Int)) :
    (x.crossref.getD ref.toNat (-1) ≠ -1 →
      (¬ v < x.base.leafVal (x.crossref.getD ref.toNat (-1)).toNat →
        FastUpdateBinaryHeap.push_if_lower v ref x = .ok (false, x)) ∧
      (v < x.base.leafVal (x.crossref.getD ref.toNat (-1)).toNat →
        FastUpdateBinaryHeap.push_if_lower v ref x =
          .ok (true, (FastUpdateBinaryHeap.push_fast v ref x).2) ∧
        (FastUpdateBinaryHeap.push_fast v ref x).2.WFX ∧
        (FastUpdateBinaryHeap.push_fast v ref x).2.base.count = x.base.count ∧
        (FastUpdateBinaryHeap.push_fast v ref x).2.crossref = x.crossref ∧
        (FastUpdateBinaryHeap.push_fast v ref x).2.base.leafVal
          (x.crossref.getD ref.toNat (-1)).toNat = v ∧
        (∀ s, s < 2 ^ x.base.levels → s ≠ (x.crossref.getD ref.toNat (-1)).toNat →
          (FastUpdateBinaryHeap.push_fast v ref x).2.base.leafVal s
            = x.base.leafVal s))) ∧
    (x.crossref.getD ref.toNat (-1) = -1 →
      FastUpdateBinaryHeap.push_if_lower v ref x =
        .ok (true, (FastUpdateBinaryHeap.push_fast v ref x).2) ∧
      (FastUpdateBinaryHeap.push_fast v ref x).2.WFX ∧
      (FastUpdateBinaryHeap.push_fast v ref x).2.base.count = x.base.count + 1 ∧
      (FastUpdateBinaryHeap.push_fast v ref x).2.base.leafVal x.base.count = v) := by
  constructor
  · intro hne
    obtain ⟨q1, q2⟩ := (push_if_lower_spec v ref x).2.1 h0 h1 hne
    refine ⟨q2, fun hlt => ?_⟩
    obtain ⟨e1, e2, e3, e4, e5, e6, e7, e8, e9, e10, e11⟩ :=
      (fuPush_fast_spec v ref x hWFX).2.1 h0 h1 hne
        (FastUpdateBinaryHeap.push_fast v ref x).1
        (FastUpdateBinaryHeap.push_fast v ref x).2 rfl
    refine ⟨q1 hlt, e2, e3, e7, by rw [← e1]; exact e10, ?_⟩
    intro s hs hsne
    exact e11 s hs (by rw [e1]; exact hsne)
  · intro hm1
    obtain ⟨f1, f2, f3, f4, f5, f6, f7, f8, f9⟩ :=
      (fuPush_fast_spec v ref x hWFX).2.2 h0 h1 hm1
        (FastUpdateBinaryHeap.push_fast v ref x).1
        (FastUpdateBinaryHeap.push_fast v ref x).2 rfl
    exact ⟨(push_if_lower_spec v ref x).2.2 h0 h1 hm1, f2, f3, f7⟩

/-- Witness for C2: Scenario C — after push(10, 1), pushIfLower(12, 1) reports
no mutation and leaves the state untouched, while pushIfLower(3, 1) reports a
mutation and installs the lower value. -/
theorem C2_witness :
    FastUpdateBinaryHeap.push_if_lower (qv 12) 1
        (FastUpdateBinaryHeap.push_fast (qv 10) 1 (FastUpdateBinaryHeap.mkNew 4 2)).2 =
      .ok (false, (FastUpdateBinaryHeap.push_fast (qv 10) 1
        (FastUpdateBinaryHeap.mkNew 4 2)).2) ∧
    FastUpdateBinaryHeap.push_if_lower (qv 3) 1
        (FastUpdateBinaryHeap.push_fast (qv 10) 1 (FastUpdateBinaryHeap.mkNew 4 2)).2 =
      .ok (true, (FastUpdateBinaryHeap.push_fast (qv 3) 1
        (FastUpdateBinaryHeap.push_fast (qv 10) 1
          (FastUpdateBinaryHeap.mkNew 4 2)).2).2) :=
  ⟨((C2_push_if_lower (qv 12) 1
      (FastUpdateBinaryHeap.push_fast (qv 10) 1 (FastUpdateBinaryHeap.mkNew 4 2)).2
      (by decide) (by decide) (by decide)).1 (by decide)).1 (by decide),
   (((C2_push_if_lower (qv 3) 1
      (FastUpdateBinaryHeap.push_fast (qv 10) 1 (FastUpdateBinaryHeap.mkNew 4 2)).2
      (by decide) (by decide) (by decide)).1 (by decide)).2 (by decide)).1⟩

/-- Claim C3 (amended): `pop` does locate the global minimum by the root-down
descent, but ties between children are broken toward the RIGHT child (the `<`
test fails on equality), so among equal minimal leaves the RIGHTMOST one's
(value, id) pair is extracted — not the leftmost as claimed. -/
theorem C3_pop_rightmost (h : BinaryHeap) (hWF : h.WF) (hne : h.slotsMin ≠ inf) :
    (BinaryHeap.pop_fast h).1 = h.slotsMin ∧
    (BinaryHeap.pop_fast h).2.1 = h.refAt h.rightmostMin ∧
    h.leafVal h.rightmostMin = h.slotsMin ∧
    (∀ r, h.rightmostMin < r → r < 2 ^ h.levels → h.slotsMin < h.leafVal r) ∧
    h.rightmostMin < h.count := by
  obtain ⟨w1, w2, w3, w4, w5, w6, w7⟩ := hWF
  obtain ⟨hs1, hs2, hs3⟩ := selectMinIndex_spec h (by omega) w6
  obtain ⟨p1, p2, p3, p4, p5, p6, p7⟩ := pop_fast_spec h ⟨w1, w2, w3, w4, w5, w6, w7⟩
  rw [hs2] at hs1
  refine ⟨p1, p2, hs1, ?_, (p7 hne).2.1⟩
  intro r hr1 hr2
  have hle := rangeMin_le h.levels h.values (2 ^ h.levels) 0 r (Nat.zero_le _) (by omega)
  have hr1x : Nat.findGreatest
      (fun t => h.values.getD (2 ^ h.levels - 1 + t) inf = h.slotsMin)
      (2 ^ h.levels - 1) < r := hr1
  have hnot := Nat.findGreatest_is_greatest hr1x (by omega)
  show h.slotsMin < h.values.getD (2 ^ h.levels - 1 + r) inf
  exact lt_of_le_of_ne hle (fun he => hnot he.symm)

/-- With the two equal minimal leaves (5, id 10) at position 0 and (5, id 20)
at position 1, `pop_fast` returns id 20 — the RIGHT member of the tied pair,
not the leftmost. -/
theorem C3_counterexample :
    (runB (newBinaryHeap 4) [HeapOp.push (qv 5) 10, HeapOp.push (qv 5) 20]).leafVal 0
      = qv 5 ∧
    (runB (newBinaryHeap 4) [HeapOp.push (qv 5) 10, HeapOp.push (qv 5) 20]).leafVal 1
      = qv 5 ∧
    (runB (newBinaryHeap 4) [HeapOp.push (qv 5) 10, HeapOp.push (qv 5) 20]).refAt 0
      = 10 ∧
    (runB (newBinaryHeap 4) [HeapOp.push (qv 5) 10, HeapOp.push (qv 5) 20]).refAt 1
      = 20 ∧
    (BinaryHeap.pop_fast (runB (newBinaryHeap 4)
      [HeapOp.push (qv 5) 10, HeapOp.push (qv 5) 20])).1 = qv 5 ∧
    (BinaryHeap.pop_fast (runB (newBinaryHeap 4)
      [HeapOp.push (qv 5) 10, HeapOp.push (qv 5) 20])).2.1 = 20 := by
  decide

/-- Witness for C3 at the tied two-leaf heap. -/
theorem C3_witness :
    (BinaryHeap.pop_fast (runB (newBinaryHeap 4)
      [HeapOp.push (qv 5) 10, HeapOp.push (qv 5) 20])).2.1 =
    (runB (newBinaryHeap 4) [HeapOp.push (qv 5) 10, HeapOp.push (qv 5) 20]).refAt
      (runB (newBinaryHeap 4) [HeapOp.push (qv 5) 10, HeapOp.push (qv 5) 20]).rightmostMin :=
  (C3_pop_rightmost (runB (newBinaryHeap 4)
    [HeapOp.push (qv 5) 10, HeapOp.push (qv 5) 20]) (by decide) (by decide)).2.1

/-- Claim C4 (code bug): `reset` refills the value buffer (and, in the indexed
variant, the cross-reference table) but never zeroes `count` — after a push,
`reset` leaves `count = 1`, so the heap is NOT returned to the empty state. -/
theorem C4_reset_keeps_count :
    (BinaryHeap.reset (stepB (newBinaryHeap 4) (HeapOp.push (qv 5) 0))).count = 1 ∧
    (BinaryHeap.reset (stepB (newBinaryHeap 4) (HeapOp.push (qv 5) 0))).values =
      List.replicate 8 inf ∧
    (FastUpdateBinaryHeap.reset (stepX (FastUpdateBinaryHeap.mkNew 4 2)
        (HeapOp.push (qv 5) 0))).base.count = 1 ∧
    (FastUpdateBinaryHeap.reset (stepX (FastUpdateBinaryHeap.mkNew 4 2)
        (HeapOp.push (qv 5) 0))).crossref = List.replicate 3 (-1) := by
  decide

/-- Claim C5 (amended): on an empty well-formed heap, `pop` does raise
`IndexError`, but `min_val` (the peek) performs NO emptiness check: it returns
the sentinel `inf` instead of failing. -/
theorem C5_empty_heap (h : BinaryHeap) (hWF : h.WF) (hz : h.count = 0) :
    BinaryHeap.pop h = .error (.indexError "pop from an empty heap") ∧
    BinaryHeap.min_val h = inf := by
  refine ⟨(pop_spec h hWF).1 hz, ?_⟩
  rw [min_val_eq_slotsMin h (by obtain ⟨w1, w2, _⟩ := hWF; omega) hWF.2.2.2.2.2.1]
  exact slotsMin_of_empty h hWF hz

/-- On the freshly constructed (empty) heap, `min_val` returns the sentinel
value instead of surfacing an EmptyHeap error — its signature has no error
channel at all, faithful to the code, which reads the level-1 slots without
any count check. -/
theorem C5_counterexample :
    (newBinaryHeap 4).count = 0 ∧
    BinaryHeap.min_val (newBinaryHeap 4) = inf := by
  decide

/-- Witness for C5 at the fresh empty heap. -/
theorem C5_witness :
    BinaryHeap.pop (newBinaryHeap 4) = .error (.indexError "pop from an empty heap") ∧
    BinaryHeap.min_val (newBinaryHeap 4) = inf :=
  C5_empty_heap (newBinaryHeap 4) (by decide) (by decide)

/-- Claim C6 (code bug): for an id outside `[0, max_reference]`, `push` and
`push_if_lower` do raise `ValueError` with the state untouched, but `value_of`
performs no range check at all: the read `self._crossref[reference]` is an
out-of-bounds access (undefined behaviour), not a clean InvalidKey error. -/
theorem C6_out_of_range (v : VALUE_T) (ref : Int) (x : FastUpdateBinaryHeap)
    (hWFX : x.WFX) (hout : ¬ (0 ≤ ref ∧ ref ≤ (x.max_reference : Int))) :
    FastUpdateBinaryHeap.push_fast v ref x = (-1, x) ∧
    FastUpdateBinaryHeap.push v ref x =
      .error (.valueError "reference outside of range [0, max_reference]") ∧
    FastUpdateBinaryHeap.push_if_lower v ref x =
      .error (.valueError "reference outside of range [0, max_reference]") ∧
    FastUpdateBinaryHeap.value_of_fast x ref = .undef ∧
    FastUpdateBinaryHeap.value_of x ref = .undef := by
  have hlen := hWFX.2.1
  have hrange2 : ¬ (0 ≤ ref ∧ ref.toNat < x.crossref.length) := by
    rw [hlen]
    intro hab
    exact hout ⟨hab.1, by have h2 := hab.2; have h1 := hab.1; omega⟩
  obtain ⟨u1, u2⟩ := (value_of_spec x ref).1 hrange2
  exact ⟨(fuPush_fast_spec v ref x hWFX).1 hout, (fuPush_spec v ref x hWFX).1 hout,
    (push_if_lower_spec v ref x).1 hout, u2, u1⟩

/-- Witness for C6: id 3 on a fresh indexed heap with max_reference 2. -/
theorem C6_witness :
    FastUpdateBinaryHeap.push_fast (qv 1) 3 (FastUpdateBinaryHeap.mkNew 4 2) =
      (-1, FastUpdateBinaryHeap.mkNew 4 2) ∧
    FastUpdateBinaryHeap.push (qv 1) 3 (FastUpdateBinaryHeap.mkNew 4 2) =
      .error (.valueError "reference outside of range [0, max_reference]") ∧
    FastUpdateBinaryHeap.push_if_lower (qv 1) 3 (FastUpdateBinaryHeap.mkNew 4 2) =
      .error (.valueError "reference outside of range [0, max_reference]") ∧
    FastUpdateBinaryHeap.value_of_fast (FastUpdateBinaryHeap.mkNew 4 2) 3 = .undef ∧
    FastUpdateBinaryHeap.value_of (FastUpdateBinaryHeap.mkNew 4 2) 3 = .undef :=
  C6_out_of_range (qv 1) 3 (FastUpdateBinaryHeap.mkNew 4 2) (by decide) (by decide)

/-- Claim C7 (amended): for an in-range id, `value_of` raises
`ValueError("invalid reference")` when the id is absent and returns the stored
leaf value by direct indexing when present.  The claimed distinguishability
from an out-of-range InvalidKey fails: `value_of` performs no range check, so
an out-of-range id is an out-of-bounds read, not an error (see the
counterexample). -/
theorem C7_value_of (x : FastUpdateBinaryHeap) (hWFX : x.WFX) (ref : Int)
    (h0 : 0 ≤ ref) (h1 : ref ≤ (x.max_reference : Int)) :
    (x.crossref.getD ref.toNat (-1) = -1 →
      FastUpdateBinaryHeap.value_of x ref = .exn (.valueError "invalid reference")) ∧
    (x.crossref.getD ref.toNat (-1) ≠ -1 →
      FastUpdateBinaryHeap.value_of x ref =
        .ok (x.base.leafVal (x.crossref.getD ref.toNat (-1)).toNat)) := by
  have hlen := hWFX.2.1
  have hin : ref.toNat < x.crossref.length := by rw [hlen]; omega
  exact ⟨fun hm => (value_of_spec x ref).2.1 h0 hin hm,
    fun hne => (value_of_spec x ref).2.2 h0 hin hne⟩

/-- The only errors `value_of` and the push wrappers ever produce are plain
`ValueError`s, and an out-of-range `value_of` produces no error at all — it is
an out-of-bounds read: there is no InvalidKey raised by `value_of` for the
"not present" `ValueError` to be distinguished from. -/
theorem C7_counterexample :
    FastUpdateBinaryHeap.value_of (FastUpdateBinaryHeap.mkNew 4 2) 0 =
      .exn (.valueError "invalid reference") ∧
    FastUpdateBinaryHeap.value_of (FastUpdateBinaryHeap.mkNew 4 2) 3 = .undef ∧
    FastUpdateBinaryHeap.push (qv 1) 3 (FastUpdateBinaryHeap.mkNew 4 2) =
      .error (.valueError "reference outside of range [0, max_reference]") ∧
    (PyErr.valueError "invalid reference").isValueError = true ∧
    (PyErr.valueError "reference outside of range [0, max_reference]").isValueError
      = true := by
  decide

/-- Witness for C7: absent id 1 on the fresh heap, then present id 1 after a
push. -/
theorem C7_witness :
    FastUpdateBinaryHeap.value_of (FastUpdateBinaryHeap.mkNew 4 2) 1 =
      .exn (.valueError "invalid reference") ∧
    FastUpdateBinaryHeap.value_of
        (FastUpdateBinaryHeap.push_fast (qv 10) 1 (FastUpdateBinaryHeap.mkNew 4 2)).2 1 =
      .ok ((FastUpdateBinaryHeap.push_fast (qv 10) 1
          (FastUpdateBinaryHeap.mkNew 4 2)).2.base.leafVal
        (((FastUpdateBinaryHeap.push_fast (qv 10) 1
          (FastUpdateBinaryHeap.mkNew 4 2)).2.crossref.getD (1 : Int).toNat (-1)).toNat)) :=
  ⟨(C7_value_of (FastUpdateBinaryHeap.mkNew 4 2) (by decide) 1 (by decide) (by decide)).1
      (by decide),
   (C7_value_of (FastUpdateBinaryHeap.push_fast (qv 10) 1
        (FastUpdateBinaryHeap.mkNew 4 2)).2 (by decide) 1 (by decide) (by decide)).2
      (by decide)⟩

/-- Claim C8: for an in-range id that is already present, `push` is an
in-place value overwrite at the existing leaf position with a local path
repair: `count`, the leaf-id buffer and the cross-reference table are all
unchanged, other leaves keep their values, well-formedness is preserved, and
`value_of` immediately afterwards returns the new value. -/
theorem C8_push_present (v : VALUE_T) (ref : Int) (x : FastUpdateBinaryHeap)
    (hWFX : x.WFX) (h0 : 0 ≤ ref) (h1 : ref ≤ (x.max_reference : Int))
    (hne : x.crossref.getD ref.toNat (-1) ≠ -1) :
    FastUpdateBinaryHeap.push v ref x =
      .ok (FastUpdateBinaryHeap.push_fast v ref x).2 ∧
    (FastUpdateBinaryHeap.push_fast v ref x).2.WFX ∧
    (FastUpdateBinaryHeap.push_fast v ref x).2.base.count = x.base.count ∧
    (FastUpdateBinaryHeap.push_fast v ref x).2.base.references = x.base.references ∧
    (FastUpdateBinaryHeap.push_fast v ref x).2.crossref = x.crossref ∧
    (FastUpdateBinaryHeap.push_fast v ref x).2.base.leafVal
      (x.crossref.getD ref.toNat (-1)).toNat = v ∧
    (∀ s, s < 2 ^ x.base.levels → s ≠ (x.crossref.getD ref.toNat (-1)).toNat →
      (FastUpdateBinaryHeap.push_fast v ref x).2.base.leafVal s = x.base.leafVal s) ∧
    FastUpdateBinaryHeap.value_of (FastUpdateBinaryHeap.push_fast v ref x).2 ref =
      .ok v := by
  obtain ⟨sp1, sp2, sp3⟩ := fuPush_fast_spec v ref x hWFX
  obtain ⟨e1, e2, e3, e4, e5, e6, e7, e8, e9, e10, e11⟩ := sp2 h0 h1 hne
    (FastUpdateBinaryHeap.push_fast v ref x).1
    (FastUpdateBinaryHeap.push_fast v ref x).2 rfl
  have hleaf : (FastUpdateBinaryHeap.push_fast v ref x).2.base.leafVal
      (x.crossref.getD ref.toNat (-1)).toNat = v := by
    rw [← e1]
    exact e10
  have hvo : FastUpdateBinaryHeap.value_of (FastUpdateBinaryHeap.push_fast v ref x).2 ref
      = .ok v := by
    have hin : ref.toNat < (FastUpdateBinaryHeap.push_fast v ref x).2.crossref.length := by
      rw [e7, hWFX.2.1]
      omega
    have hne2 : (FastUpdateBinaryHeap.push_fast v ref x).2.crossref.getD ref.toNat (-1)
        ≠ -1 := by
      rw [e7]
      exact hne
    have hv := (value_of_spec (FastUpdateBinaryHeap.push_fast v ref x).2 ref).2.2 h0 hin hne2
    rw [hv, e7]
    exact congrArg PyOutcome.ok hleaf
  exact ⟨(fuPush_spec v ref x hWFX).2 h0 h1, e2, e3, e6, e7, hleaf,
    (fun s hs hsne => e11 s hs (by rw [e1]; exact hsne)), hvo⟩

/-- Witness for C8: Scenario B — push(10, 0) then push(4, 0) on a fresh
indexed heap with max_reference 2 updates in place: `count` stays 1 and
valueOf(0) returns 4. -/
theorem C8_witness :
    FastUpdateBinaryHeap.value_of
        (FastUpdateBinaryHeap.push_fast (qv 4) 0
          (FastUpdateBinaryHeap.push_fast (qv 10) 0
            (FastUpdateBinaryHeap.mkNew 4 2)).2).2 0 = .ok (qv 4) ∧
    (FastUpdateBinaryHeap.push_fast (qv 4) 0
        (FastUpdateBinaryHeap.push_fast (qv 10) 0
          (FastUpdateBinaryHeap.mkNew 4 2)).2).2.base.count =
      (FastUpdateBinaryHeap.push_fast (qv 10) 0
        (FastUpdateBinaryHeap.mkNew 4 2)).2.base.count ∧
    (FastUpdateBinaryHeap.push_fast (qv 10) 0
      (FastUpdateBinaryHeap.mkNew 4 2)).2.base.count = 1 := by
  have h := C8_push_present (qv 4) 0
    (FastUpdateBinaryHeap.push_fast (qv 10) 0 (FastUpdateBinaryHeap.mkNew 4 2)).2
    (by decide) (by decide) (by decide) (by decide)
  exact ⟨h.2.2.2.2.2.2.2, h.2.2.1, by decide⟩

/-- Claim C9 (code bug): cross-reference consistency (I4) is preserved by the
public push/pop operations, but NOT by `reset`: `reset` clears the
cross-reference table while leaving `count` at its old value, so afterwards an
occupied leaf position `p < count` has `crossref[leafRefs[p]] = -1 ≠ p`. -/
theorem C9_I4 :
    (∀ (x : FastUpdateBinaryHeap) (op : HeapOp), x.WFX → (stepX x op).WFX) ∧
    (stepX (FastUpdateBinaryHeap.mkNew 4 2) (HeapOp.push (qv 5) 0)).WFX ∧
    ¬ (FastUpdateBinaryHeap.reset (stepX (FastUpdateBinaryHeap.mkNew 4 2)
        (HeapOp.push (qv 5) 0))).I4 := by
  exact ⟨fun x op h => stepX_WFX x op h, by decide, by decide⟩

/-- Witness for C9: one push on a fresh indexed heap preserves
well-formedness. -/
theorem C9_witness :
    (stepX (FastUpdateBinaryHeap.mkNew 4 2) (HeapOp.push (qv 5) 0)).WFX :=
  C9_I4.1 (FastUpdateBinaryHeap.mkNew 4 2) (HeapOp.push (qv 5) 0) (by decide)

/-- Claim C10: on a heap with `count > 0` whose minimum is the sentinel
`inf`, `pop` succeeds and returns the sentinel together with the reference at
the selected leaf, leaving the state entirely unchanged (the `value != inf`
guard skips the removal). -/
theorem C10_pop_sentinel (h : BinaryHeap) (hWF : h.WF) (hc : 1 ≤ h.count)
    (hinf : h.slotsMin = inf) :
    BinaryHeap.pop h = .ok (inf, h.refAt h.rightmostMin, h) := by
  obtain ⟨p1, p2, p3, p4, p5, p6, p7⟩ := pop_fast_spec h hWF
  have hok : BinaryHeap.pop h = .ok (BinaryHeap.pop_fast h) := by
    rw [BinaryHeap.pop, if_neg (by omega)]
  rw [hok]
  rcases hpf : BinaryHeap.pop_fast h with ⟨a, b, c⟩
  rw [hpf] at p1 p2 p6
  have ha : a = h.slotsMin := p1
  have hb : b = h.refAt h.rightmostMin := p2
  have hcc : c = h := p6 hinf
  rw [ha, hinf, hb, hcc]

/-- Witness for C10: a heap holding one pushed sentinel value. -/
theorem C10_witness :
    BinaryHeap.pop (stepB (newBinaryHeap 4) (HeapOp.push inf 7)) =
      .ok (inf, (stepB (newBinaryHeap 4) (HeapOp.push inf 7)).refAt
        (stepB (newBinaryHeap 4) (HeapOp.push inf 7)).rightmostMin,
        stepB (newBinaryHeap 4) (HeapOp.push inf 7)) :=
  C10_pop_sentinel (stepB (newBinaryHeap 4) (HeapOp.push inf 7)) (by decide) (by decide)
    (by decide)
